import Mathlib

/-!
Verification development for the commit-graph layout and rendering engine of
the `git_manager` terminal dashboard.

The Rust sources are shallowly embedded:

* `HashMap<String, Commit>` (the commit store) is embedded as a `List Commit`
  carrying the entries in some iteration order; lookups go through `findCommit`
  (unique keys are a hypothesis of the theorems that need them).
* `HashSet` values whose use is limited to membership/emptiness are embedded as
  lists with guarded insertion.
* Loops that Rust guarantees terminating only through graph shape
  (`while let` walks, Kahn's queue) are embedded with an explicit fuel
  parameter that provably dominates the number of iterations.
* Rust `usize` arithmetic appears only as additions and a decrement that is
  guarded by a positivity check, so plain `Nat` is used.
-/

/- ### Commit id ordering

Rust compares `String` commit ids with `Ord::cmp` (byte-wise lexicographic).
Commit ids in this program are ASCII hex hashes, for which byte-wise and
code-point-wise comparison coincide; `chLt` is the code-point lexicographic
strict order on the underlying character lists. -/

def chLt : List Char → List Char → Bool
  | [], [] => false
  | [], _ :: _ => true
  | _ :: _, [] => false
  | a :: as, b :: bs =>
    if a.toNat < b.toNat then true
    else if b.toNat < a.toNat then false
    else chLt as bs

/-- Strict `a < b` on commit ids. -/
def idLt (a b : String) : Bool := chLt a.data b.data

/-- Nonstrict `a <= b` on commit ids, as Rust's total order: `¬ (b < a)`. -/
def idLe (a b : String) : Bool := !(idLt b a)

theorem chLt_irrefl (l : List Char) : chLt l l = false := by
  induction l with
  | nil => rfl
  | cons a as ih => simp [chLt, ih]

theorem chLt_asymm : ∀ {l₁ l₂ : List Char}, chLt l₁ l₂ = true → chLt l₂ l₁ = false
  | [], [], h => by simp [chLt] at h
  | [], _ :: _, _ => rfl
  | _ :: _, [], h => by simp [chLt] at h
  | a :: as, b :: bs, h => by
    by_cases hab : a.toNat < b.toNat
    · have hba : ¬ b.toNat < a.toNat := by omega
      simp [chLt, hab, hba]
    · by_cases hba : b.toNat < a.toNat
      · simp [chLt, hab, hba] at h
      · simp only [chLt, if_neg hab, if_neg hba] at h
        simp only [chLt, if_neg hba, if_neg hab]
        exact chLt_asymm h

theorem chLt_connex : ∀ {l₁ l₂ : List Char}, chLt l₁ l₂ = false → chLt l₂ l₁ = false → l₁ = l₂
  | [], [], _, _ => rfl
  | [], _ :: _, h, _ => by simp [chLt] at h
  | _ :: _, [], _, h₂ => by simp [chLt] at h₂
  | a :: as, b :: bs, h, h₂ => by
    by_cases hab : a.toNat < b.toNat
    · simp [chLt, hab] at h
    · by_cases hba : b.toNat < a.toNat
      · simp [chLt, hba] at h₂
      · simp only [chLt, if_neg hab, if_neg hba] at h
        simp only [chLt, if_neg hba, if_neg hab] at h₂
        have hc : a = b := by
          apply Char.ext
          apply UInt32.ext
          show a.toNat = b.toNat
          omega
        rw [hc, chLt_connex h h₂]

theorem chLt_trans : ∀ {l₁ l₂ l₃ : List Char},
    chLt l₁ l₂ = true → chLt l₂ l₃ = true → chLt l₁ l₃ = true
  | [], [], _, h, _ => by simp [chLt] at h
  | _ :: _, [], _, h, _ => by simp [chLt] at h
  | _, _ :: _, [], _, h₂ => by simp [chLt] at h₂
  | [], _ :: _, _ :: _, _, _ => rfl
  | a :: as, b :: bs, c :: cs, h, h₂ => by
    by_cases hab : a.toNat < b.toNat <;> by_cases hbc : b.toNat < c.toNat
    · have hac : a.toNat < c.toNat := Nat.lt_trans hab hbc
      simp [chLt, hac]
    · by_cases hcb : c.toNat < b.toNat
      · simp [chLt, hbc, hcb] at h₂
      · have hac : a.toNat < c.toNat := by omega
        simp [chLt, hac]
    · by_cases hba : b.toNat < a.toNat
      · simp [chLt, hab, hba] at h
      · have hac : a.toNat < c.toNat := by omega
        simp [chLt, hac]
    · by_cases hba : b.toNat < a.toNat
      · simp [chLt, hab, hba] at h
      · by_cases hcb : c.toNat < b.toNat
        · simp [chLt, hbc, hcb] at h₂
        · simp only [chLt, if_neg hab, if_neg hba] at h
          simp only [chLt, if_neg hbc, if_neg hcb] at h₂
          have hac : ¬ a.toNat < c.toNat := by omega
          have hca : ¬ c.toNat < a.toNat := by omega
          simp only [chLt, if_neg hac, if_neg hca]
          exact chLt_trans h h₂

theorem idLe_total (a b : String) : idLe a b = true ∨ idLe b a = true := by
  unfold idLe idLt
  rcases Bool.eq_false_or_eq_true (chLt b.data a.data) with h | h
  · right
    simp [chLt_asymm h]
  · left
    simp [h]

theorem idLe_antisymm {a b : String} (h₁ : idLe a b = true) (h₂ : idLe b a = true) : a = b := by
  unfold idLe idLt at h₁ h₂
  rw [Bool.not_eq_true'] at h₁ h₂
  exact String.ext (chLt_connex h₂ h₁)

theorem idLe_trans {a b c : String} (h₁ : idLe a b = true) (h₂ : idLe b c = true) :
    idLe a c = true := by
  unfold idLe idLt at h₁ h₂ ⊢
  rw [Bool.not_eq_true'] at h₁ h₂ ⊢
  rcases Bool.eq_false_or_eq_true (chLt c.data a.data) with h | h
  · rcases Bool.eq_false_or_eq_true (chLt a.data b.data) with hab | hab
    · have hcb : chLt c.data b.data = true := chLt_trans h hab
      simp [hcb] at h₂
    · have hd : a.data = b.data := chLt_connex hab h₁
      rw [hd] at h
      simp [h] at h₂
  · exact h

/- ### Data model (src/graph.rs) -/

/-- Embedding of `struct Commit` from src/graph.rs. -/
structure Commit where
  id : String
  short_id : String
  parents : List String
  children : List String
  message : String
  author : String
  timestamp : Int
deriving Repr, DecidableEq

/-- Embedding of `enum Connection` from src/graph.rs. -/
inductive Connection where
  | Vertical : Connection
  | MergeFrom : Nat → Connection
  | BranchTo : Nat → Connection
  | ShiftLeft : Nat → Connection
  | PassThrough : Nat → Connection
deriving Repr, DecidableEq

/-- Embedding of `struct GraphNode` from src/graph.rs. -/
structure GraphNode where
  commit : Commit
  column : Nat
  connections : List Connection
  in_current_branch : Bool
deriving Repr, DecidableEq

/-- The commit store `commits: HashMap<String, Commit>` is embedded as a list of
entries in iteration order; `findCommit` is `self.commits.get(id)` under the
map's unique-key guarantee. -/
def findCommit (s : List Commit) (i : String) : Option Commit :=
  s.find? (fun c => c.id == i)

/-- The key set of the store, in iteration order. -/
def ids (s : List Commit) : List String := s.map Commit.id

/- ### CommitGraph::build_graph (src/graph.rs lines 116-132) -/

/-- One parent-link registration: append `child_id` to the children of the store
entry with key `parent_id` unless already present (`get_mut` + `contains` guard).
A missing parent id updates nothing (dangling-parent boundary). -/
def addChild (s : List Commit) (parent_id child_id : String) : List Commit :=
  s.map fun p =>
    if p.id == parent_id && !(p.children.contains child_id) then
      { p with children := p.children ++ [child_id] }
    else p

/-- Embedding of `CommitGraph::build_graph`: iterate the key list, and for each
commit append its id to each of its parents' children lists. The commit's
parents are read from the current store state, exactly as the Rust code does
(children mutations never touch `parents`). -/
def build_graph (s : List Commit) : List Commit :=
  (s.map Commit.id).foldl
    (fun acc commit_id =>
      match findCommit acc commit_id with
      | some c => c.parents.foldl (fun acc2 parent_id => addChild acc2 parent_id commit_id) acc
      | none => acc)
    s

/- ### CommitGraph::topological_sort (src/graph.rs lines 134-190) -/

/-- Timestamp of the commit with a given id, `0` when absent — matching
`self.commits.get(a).map(|c| c.timestamp).unwrap_or(0)`. -/
def tsOf (s : List Commit) (a : String) : Int :=
  match findCommit s a with
  | some c => c.timestamp
  | none => 0

/-- The comparator `time_b.cmp(&time_a).then_with(|| a.cmp(b))` used by both
sort calls in `topological_sort`: newest timestamp first, id ascending as
tiebreak. `keyLE s a b` holds when `a` sorts no later than `b`. -/
def keyLE (s : List Commit) (a b : String) : Bool :=
  if tsOf s a == tsOf s b then idLe a b else decide (tsOf s b < tsOf s a)

/-- Rust's stable `sort_by` with the comparator above. Insertion sort has the
same semantics on the nodup id lists being sorted, because the comparator is
then a total, transitive, antisymmetric order (proved below), which pins the
sorted list uniquely. -/
def sortIds (s : List Commit) (l : List String) : List String :=
  List.insertionSort (fun a b => keyLE s a b = true) l

/-- Final value of the `in_degree` map at key `x`: one increment per occurrence
of `x` in some commit's children list. -/
def indeg (s : List Commit) (x : String) : Nat :=
  s.foldl (fun n c => n + c.children.count x) 0

/-- The initial ready set: in-degree-0 keys of the `in_degree` map (these are
exactly store ids with in-degree 0, since every child key has in-degree at
least 1), sorted newest-first. The embedding keeps the list reversed so that
the list head is the next element Rust's `Vec::pop` would return. -/
def initQueue (s : List Commit) : List String :=
  (sortIds s ((s.map Commit.id).filter (fun i => indeg s i == 0))).reverse

def totalDeg (s : List Commit) : Nat := (s.map (fun c => c.children.length)).sum

/-- Fuel dominating the number of loop iterations of Kahn's algorithm: each
iteration pops one queue element, and at most `|initial queue| + totalDeg`
elements are ever pushed. -/
def kahnFuel (s : List Commit) : Nat := s.length + totalDeg s + 1

/-- The `while let Some(commit_id) = queue.pop()` loop of
`CommitGraph::topological_sort`. The queue is kept top-first (head = next pop).
Each child's in-degree is decremented and the child is pushed when the
decrement reaches zero; `d = 1` states "decrements to zero" without the
truncated-subtraction artifact of `Nat` (a decrement of an in-degree that is
already `0` would be an underflow panic in a debug build and is unreachable,
see the invariants below). -/
def kahnStep (queue : List String) (deg : String → Nat) (children : List String) :
    List String × (String → Nat) :=
  children.foldl
    (fun (qd : List String × (String → Nat)) child_id =>
      let d := qd.2 child_id
      let deg2 : String → Nat := fun y => if y = child_id then d - 1 else qd.2 y
      if d = 1 then (child_id :: qd.1, deg2) else (qd.1, deg2))
    (queue, deg)

def kahnLoop (s : List Commit) : Nat → List String → (String → Nat) → List String → List String
  | 0, _, _, result => result
  | _ + 1, [], _, result => result
  | fuel + 1, commit_id :: queue, deg, result =>
    let result := result ++ [commit_id]
    match findCommit s commit_id with
    | some c =>
      let step := kahnStep queue deg (sortIds s c.children)
      kahnLoop s fuel step.1 step.2 result
    | none => kahnLoop s fuel queue deg result

/-- Embedding of `CommitGraph::topological_sort` (oldest-to-newest output). -/
def topological_sort (s : List Commit) : List String :=
  kahnLoop s (kahnFuel s) (initQueue s) (indeg s) []

/- ### CommitGraph::trace_ancestry (src/graph.rs lines 192-209) -/

def totalParents (s : List Commit) : Nat := (s.map (fun c => c.parents.length)).sum

/-- Fuel dominating the trace loop: each iteration pops one stack element and
at most `1 + totalParents` elements are ever pushed. -/
def traceFuel (s : List Commit) : Nat := totalParents s + s.length + 2

/-- The `while let Some(current_id) = stack.pop()` loop of `trace_ancestry`.
The visited set is a list with guarded insertion (insertion order is
irrelevant to the membership facts proved about it). Parents are pushed in
order, so the stack head receives the last parent — exactly Rust's LIFO pop
order. -/
def traceLoop (s : List Commit) : Nat → List String → List String → List String
  | 0, _, visited => visited
  | _ + 1, [], visited => visited
  | fuel + 1, current_id :: stack, visited =>
    if current_id ∈ visited then traceLoop s fuel stack visited
    else
      let visited := visited ++ [current_id]
      match findCommit s current_id with
      | some c => traceLoop s fuel (c.parents.foldl (fun st p => p :: st) stack) visited
      | none => traceLoop s fuel stack visited

/-- Embedding of `CommitGraph::trace_ancestry`: the ancestry set is cleared and
rebuilt from the starting id alone. -/
def trace_ancestry (s : List Commit) (commit_id : String) : List String :=
  traceLoop s (traceFuel s) [commit_id] []

theorem traceLoop_monotone (s : List Commit) :
    ∀ (fuel : Nat) (stack visited : List String) (x : String),
      x ∈ visited → x ∈ traceLoop s fuel stack visited := by
  intro fuel
  induction fuel with
  | zero => intro stack visited x hx; exact hx
  | succ n ih =>
    intro stack visited x hx
    match stack with
    | [] => exact hx
    | current_id :: stack =>
      simp only [traceLoop]
      by_cases hv : current_id ∈ visited
      · rw [if_pos hv]
        exact ih stack visited x hx
      · rw [if_neg hv]
        cases hfc : findCommit s current_id with
        | some c => exact ih _ _ x (List.mem_append_left _ hx)
        | none => exact ih _ _ x (List.mem_append_left _ hx)

theorem traceLoop_mem_head (s : List Commit) (fuel : Nat) (stack visited : List String)
    (x : String) : x ∈ traceLoop s (fuel + 1) (x :: stack) visited := by
  simp only [traceLoop]
  by_cases hv : x ∈ visited
  · rw [if_pos hv]
    exact traceLoop_monotone s fuel stack visited x hv
  · rw [if_neg hv]
    have hx : x ∈ visited ++ [x] := List.mem_append_right _ (List.mem_singleton.mpr rfl)
    cases hfc : findCommit s x with
    | some c => exact traceLoop_monotone s fuel _ _ x hx
    | none => exact traceLoop_monotone s fuel _ _ x hx

/-- C10: `trace_ancestry` rebuilds the ancestry set from scratch (any previous
set is discarded by construction) and the result always contains the starting
id; when the starting id is not present in the commit store, the resulting
ancestry path is exactly the singleton containing that id. -/
theorem trace_ancestry_start_mem (s : List Commit) (commit_id : String) :
    commit_id ∈ trace_ancestry s commit_id ∧
      (findCommit s commit_id = none → trace_ancestry s commit_id = [commit_id]) := by
  constructor
  · show commit_id ∈ traceLoop s (totalParents s + s.length + 1 + 1) [commit_id] []
    exact traceLoop_mem_head s _ [] [] commit_id
  · intro hnone
    show traceLoop s (totalParents s + s.length + 1 + 1) [commit_id] [] = [commit_id]
    simp only [traceLoop, hnone]
    rw [if_neg (List.not_mem_nil commit_id)]
    rfl

/-- Witness for C10 at a concrete input: the store is empty, so the starting id
is unknown and the traced ancestry is exactly the singleton. -/
theorem trace_ancestry_start_mem_witness :
    trace_ancestry [] "z" = ["z"] ∧ "z" ∈ trace_ancestry [] "z" :=
  ⟨(trace_ancestry_start_mem [] "z").2 rfl, (trace_ancestry_start_mem [] "z").1⟩

/- ### Basic store lemmas -/

theorem findCommit_some (s : List Commit) (x : String) {c : Commit}
    (h : findCommit s x = some c) : c ∈ s ∧ c.id = x := by
  refine ⟨List.mem_of_find?_eq_some h, ?_⟩
  have := List.find?_some h
  simpa using this

theorem findCommit_isSome_of_mem_ids {s : List Commit} {x : String} (h : x ∈ ids s) :
    ∃ c, findCommit s x = some c := by
  rcases List.mem_map.mp h with ⟨c, hc, hcx⟩
  have : (findCommit s x).isSome = true := by
    apply List.find?_isSome.mpr
    exact ⟨c, hc, by simp [hcx]⟩
  rcases Option.isSome_iff_exists.mp this with ⟨c₀, hc₀⟩
  exact ⟨c₀, hc₀⟩

theorem findCommit_of_mem {s : List Commit} (h1 : (ids s).Nodup) {c : Commit} (hc : c ∈ s) :
    findCommit s c.id = some c := by
  induction s with
  | nil => cases hc
  | cons a t ih =>
    rcases List.mem_cons.mp hc with rfl | hct
    · simp [findCommit, List.find?]
    · have hne : a.id ≠ c.id := by
        intro he
        have : c.id ∈ ids t := List.mem_map.mpr ⟨c, hct, rfl⟩
        rw [← he] at this
        exact (List.nodup_cons.mp h1).1 this
      have : (a.id == c.id) = false := by simp [hne]
      simp only [findCommit, List.find?, this]
      exact ih (List.nodup_cons.mp h1).2 hct

theorem findCommit_unique {s : List Commit} (h1 : (ids s).Nodup) {x : String} {c p : Commit}
    (h : findCommit s x = some c) (hp : p ∈ s) (hpx : p.id = x) : p = c := by
  have := findCommit_of_mem h1 hp
  rw [hpx, h] at this
  exact (Option.some_inj.mp this).symm

theorem filter_id_singleton {s : List Commit} (h1 : (ids s).Nodup) {x : String} {c : Commit}
    (h : findCommit s x = some c) : s.filter (fun d => d.id == x) = [c] := by
  induction s with
  | nil => simp [findCommit] at h
  | cons a t ih =>
    by_cases ha : a.id = x
    · have hb : (a.id == x) = true := by simp [ha]
      have hc : a = c := by
        simp only [findCommit, List.find?, hb] at h
        exact Option.some_inj.mp h
      subst hc
      simp only [List.filter, hb]
      congr 1
      apply List.filter_eq_nil_iff.mpr
      intro d hd
      simp only [beq_iff_eq]
      intro hdx
      have : d.id ∈ ids t := List.mem_map.mpr ⟨d, hd, rfl⟩
      rw [hdx, ← ha] at this
      exact (List.nodup_cons.mp h1).1 this
    · have hb : (a.id == x) = false := by simp [ha]
      simp only [findCommit, List.find?, hb] at h
      simp only [List.filter, hb]
      exact ih (List.nodup_cons.mp h1).2 h

/- ### Order properties of the sort comparator -/

theorem keyLE_total (s : List Commit) (a b : String) :
    keyLE s a b = true ∨ keyLE s b a = true := by
  unfold keyLE
  by_cases h : tsOf s a = tsOf s b
  · simp only [h, beq_self_eq_true, if_true]
    exact idLe_total a b
  · have h' : ¬ tsOf s b = tsOf s a := fun he => h he.symm
    simp only [beq_iff_eq, if_neg h, if_neg h']
    rcases lt_or_gt_of_ne h with hlt | hgt
    · right
      simpa using hlt
    · left
      simpa using hgt

theorem keyLE_trans' {s : List Commit} {a b c : String} (h₁ : keyLE s a b = true)
    (h₂ : keyLE s b c = true) : keyLE s a c = true := by
  unfold keyLE at h₁ h₂ ⊢
  by_cases hab : tsOf s a = tsOf s b <;> by_cases hbc : tsOf s b = tsOf s c
  · have hac : tsOf s a = tsOf s c := hab.trans hbc
    simp only [beq_iff_eq, if_pos hab, if_pos hbc, if_pos hac] at h₁ h₂ ⊢
    exact idLe_trans h₁ h₂
  · have hac : ¬ tsOf s a = tsOf s c := by rw [hab]; exact hbc
    simp only [beq_iff_eq, if_pos hab, if_neg hbc, if_neg hac] at h₂ ⊢
    rw [← hab] at h₂
    exact h₂
  · have hac : ¬ tsOf s a = tsOf s c := by rw [← hbc]; exact hab
    simp only [beq_iff_eq, if_neg hab, if_pos hbc, if_neg hac] at h₁ ⊢
    rw [hbc] at h₁
    exact h₁
  · simp only [beq_iff_eq, if_neg hab, if_neg hbc] at h₁ h₂
    have hcb : tsOf s c < tsOf s b := by simpa using h₂
    have hba : tsOf s b < tsOf s a := by simpa using h₁
    have hca : tsOf s c < tsOf s a := lt_trans hcb hba
    have hac : ¬ tsOf s a = tsOf s c := fun he => absurd hca (by rw [he]; exact lt_irrefl _)
    simp only [beq_iff_eq, if_neg hac]
    simpa using hca

theorem keyLE_antisymm' {s : List Commit} {a b : String} (h₁ : keyLE s a b = true)
    (h₂ : keyLE s b a = true) : a = b := by
  unfold keyLE at h₁ h₂
  by_cases hab : tsOf s a = tsOf s b
  · have hba : tsOf s b = tsOf s a := hab.symm
    simp only [beq_iff_eq, if_pos hab, if_pos hba] at h₁ h₂
    exact idLe_antisymm h₁ h₂
  · have hba : ¬ tsOf s b = tsOf s a := fun he => hab he.symm
    simp only [beq_iff_eq, if_neg hab, if_neg hba] at h₁ h₂
    have := lt_trans (of_decide_eq_true h₁) (of_decide_eq_true h₂)
    exact absurd this (lt_irrefl _)

instance keyLE_isTotal (s : List Commit) : IsTotal String (fun a b => keyLE s a b = true) :=
  ⟨keyLE_total s⟩

instance keyLE_isTrans (s : List Commit) : IsTrans String (fun a b => keyLE s a b = true) :=
  ⟨fun _ _ _ => keyLE_trans'⟩

instance keyLE_isAntisymm (s : List Commit) : IsAntisymm String (fun a b => keyLE s a b = true) :=
  ⟨fun _ _ => keyLE_antisymm'⟩

theorem sortIds_perm (s : List Commit) (l : List String) : (sortIds s l).Perm l :=
  List.perm_insertionSort _ l

theorem sortIds_mem (s : List Commit) (l : List String) (x : String) :
    x ∈ sortIds s l ↔ x ∈ l :=
  (sortIds_perm s l).mem_iff

theorem sortIds_nodup {s : List Commit} {l : List String} (h : l.Nodup) :
    (sortIds s l).Nodup :=
  (sortIds_perm s l).nodup_iff.mpr h

theorem sortIds_length (s : List Commit) (l : List String) :
    (sortIds s l).length = l.length :=
  (sortIds_perm s l).length_eq

theorem sortIds_eq_of_perm {s : List Commit} {l₁ l₂ : List String} (h : l₁.Perm l₂) :
    sortIds s l₁ = sortIds s l₂ := by
  apply List.eq_of_perm_of_sorted (r := fun a b => keyLE s a b = true)
  · exact ((sortIds_perm s l₁).trans h).trans (sortIds_perm s l₂).symm
  · exact List.sorted_insertionSort _ l₁
  · exact List.sorted_insertionSort _ l₂

/- ### Remaining-degree bookkeeping for the Kahn invariant -/

/-- Commits whose id has not yet been emitted. -/
def remStore (s : List Commit) (result : List String) : List Commit :=
  s.filter (fun c => !(result.contains c.id))

def sumRem (s : List Commit) (result : List String) (f : Commit → Nat) : Nat :=
  ((remStore s result).map f).sum

/-- In-degree of `x` restricted to still-unprocessed commits; the value the
`in_degree` map holds at key `x` after the commits in `result` were processed. -/
def indegRem (s : List Commit) (result : List String) (x : String) : Nat :=
  sumRem s result (fun c => c.children.count x)

def remDeg (s : List Commit) (result : List String) : Nat :=
  sumRem s result (fun c => c.children.length)

theorem mem_remStore {s : List Commit} {r : List String} {c : Commit} :
    c ∈ remStore s r ↔ c ∈ s ∧ c.id ∉ r := by
  simp [remStore, List.mem_filter]

theorem remStore_nil (s : List Commit) : remStore s [] = s := by
  simp [remStore]

theorem indeg_eq_sum (s : List Commit) (x : String) :
    indeg s x = ((s.map (fun c => c.children.count x)).sum) := by
  suffices h : ∀ (n : Nat), s.foldl (fun n c => n + c.children.count x) n =
      n + (s.map (fun c => c.children.count x)).sum by
    have := h 0
    simpa [indeg] using this
  induction s with
  | nil => intro n; simp
  | cons a t ih =>
    intro n
    simp only [List.foldl_cons, List.map_cons, List.sum_cons, ih]
    omega

theorem indeg_eq_indegRem_nil (s : List Commit) (x : String) :
    indeg s x = indegRem s [] x := by
  rw [indeg_eq_sum]
  simp [indegRem, sumRem, remStore_nil]

theorem remStore_snoc (s : List Commit) (r : List String) (x : String) :
    remStore s (r ++ [x]) = (remStore s r).filter (fun c => !(c.id == x)) := by
  unfold remStore
  rw [List.filter_filter]
  apply List.filter_congr
  intro c _
  by_cases h1 : c.id ∈ r <;> by_cases h2 : c.id = x <;> simp [h1, h2]

theorem sumRem_step {s : List Commit} (h1 : (ids s).Nodup) {r : List String} {x : String}
    {c : Commit} (hfc : findCommit s x = some c) (hx : x ∉ r) (f : Commit → Nat) :
    sumRem s r f = f c + sumRem s (r ++ [x]) f := by
  have hcx : c.id = x := (findCommit_some s x hfc).2
  have hperm := List.filter_append_perm (fun d => d.id == x) (remStore s r)
  have hmap := (hperm.map f).sum_eq
  have hsingle : (remStore s r).filter (fun d => d.id == x) = [c] := by
    unfold remStore
    rw [List.filter_filter]
    have : s.filter (fun a => (a.id == x) && !(r.contains a.id)) =
        (s.filter (fun d => d.id == x)).filter (fun a => !(r.contains a.id)) := by
      rw [List.filter_filter]
      apply List.filter_congr
      intro d _
      rw [Bool.and_comm]
    rw [this, filter_id_singleton h1 hfc]
    simp [hcx, hx]
  have hrest : (remStore s r).filter (fun d => !(d.id == x)) = remStore s (r ++ [x]) :=
    (remStore_snoc s r x).symm
  rw [hsingle, hrest] at hmap
  unfold sumRem
  rw [← hmap]
  simp

theorem indegRem_zero_iff {s : List Commit} {r : List String} {y : String} :
    indegRem s r y = 0 ↔ ∀ p ∈ s, p.id ∉ r → y ∉ p.children := by
  unfold indegRem sumRem
  rw [List.sum_eq_zero_iff]
  constructor
  · intro h p hp hpr hy
    have hmem : p ∈ remStore s r := mem_remStore.mpr ⟨hp, hpr⟩
    have := h (p.children.count y) (List.mem_map.mpr ⟨p, hmem, rfl⟩)
    exact absurd this (by simp [List.count_eq_zero, hy])
  · intro h n hn
    rcases List.mem_map.mp hn with ⟨p, hp, rfl⟩
    rcases mem_remStore.mp hp with ⟨hps, hpr⟩
    exact List.count_eq_zero.mpr (h p hps hpr)

theorem indegRem_pos {s : List Commit} {r : List String} {y : String} {p : Commit}
    (hp : p ∈ s) (hpr : p.id ∉ r) (hy : y ∈ p.children) : indegRem s r y ≠ 0 := by
  intro h
  exact (indegRem_zero_iff.mp h) p hp hpr hy

theorem indegRem_exists_of_ne_zero {s : List Commit} {r : List String} {y : String}
    (h : indegRem s r y ≠ 0) : ∃ p ∈ s, p.id ∉ r ∧ y ∈ p.children := by
  by_contra hc
  push_neg at hc
  exact h (indegRem_zero_iff.mpr fun p hp hpr => hc p hp hpr)

theorem indegRem_snoc_le (s : List Commit) (r : List String) (x y : String) :
    indegRem s (r ++ [x]) y ≤ indegRem s r y := by
  unfold indegRem sumRem
  rw [remStore_snoc]
  exact (((List.filter_sublist _).map _).sum_le_sum (by intro a _; exact Nat.zero_le a))

/-- Closed form of one child-processing pass: children whose in-degree hits
zero are pushed (most recent on top), every processed child's degree drops by
one. Requires the children list to be duplicate-free, which `build_graph`
guarantees. -/
theorem kahnStep_eq : ∀ (children : List String), children.Nodup →
    ∀ (queue : List String) (deg : String → Nat),
    kahnStep queue deg children =
      ((children.filter (fun y => deg y == 1)).reverse ++ queue,
       fun y => if y ∈ children then deg y - 1 else deg y)
  | [], _, queue, deg => by
    simp only [kahnStep, List.foldl_nil, List.filter_nil, List.reverse_nil, List.nil_append,
      Prod.mk.injEq]
    refine ⟨trivial, ?_⟩
    funext y
    simp
  | c :: cs, hnd, queue, deg => by
    have hc : c ∉ cs := (List.nodup_cons.mp hnd).1
    have hcs : cs.Nodup := (List.nodup_cons.mp hnd).2
    have hstep : kahnStep queue deg (c :: cs) =
        kahnStep (if deg c = 1 then c :: queue else queue)
          (fun y => if y = c then deg c - 1 else deg y) cs := by
      simp only [kahnStep, List.foldl_cons]
      by_cases h : deg c = 1 <;> simp [h]
    rw [hstep, kahnStep_eq cs hcs]
    have hfilter : cs.filter (fun y => (if y = c then deg c - 1 else deg y) == 1) =
        cs.filter (fun y => deg y == 1) := by
      apply List.filter_congr
      intro y hy
      have : y ≠ c := fun he => hc (he ▸ hy)
      simp [this]
    rw [hfilter]
    simp only [Prod.mk.injEq]
    refine ⟨?_, ?_⟩
    · by_cases h : deg c = 1
      · simp only [if_pos h, List.filter_cons, h]
        simp only [beq_self_eq_true, if_pos]
        rw [List.reverse_cons, List.append_assoc]
        rfl
      · simp only [if_neg h, List.filter_cons]
        have : (deg c == 1) = false := by simp [h]
        simp [this]
    · funext y
      by_cases hyc : y = c
      · subst hyc
        simp [hc]
      · by_cases hycs : y ∈ cs <;> simp [hyc, hycs]

/- ### Kahn loop invariant -/

/-- Store well-formedness facts that `build_graph` establishes: unique keys,
duplicate-free children lists, children ids present in the store. -/
structure KahnStore (s : List Commit) : Prop where
  ids_nodup : (ids s).Nodup
  children_nodup : ∀ c ∈ s, c.children.Nodup
  children_closed : ∀ c ∈ s, ∀ x ∈ c.children, x ∈ ids s

/-- Loop invariant of `kahnLoop`: the queue holds fresh, ready ids; the degree
function tracks the in-degree restricted to unprocessed commits; every id
outside result and queue still has an unprocessed in-store parent; emitted ids
appear after all their in-store parents. -/
structure KahnInv (s : List Commit) (queue : List String) (deg : String → Nat)
    (result : List String) : Prop where
  result_nodup : result.Nodup
  queue_nodup : queue.Nodup
  queue_fresh : ∀ x ∈ queue, x ∉ result
  queue_ids : ∀ x ∈ queue, x ∈ ids s
  result_ids : ∀ x ∈ result, x ∈ ids s
  queue_ready : ∀ x ∈ queue, indegRem s result x = 0
  deg_spec : ∀ x, deg x = indegRem s result x
  done_zero : ∀ x ∈ result, indegRem s result x = 0
  pending : ∀ x ∈ ids s, x ∉ result → x ∉ queue →
    ∃ p ∈ s, x ∈ p.children ∧ p.id ∉ result
  ordered : ∀ (k : Nat) (hk : k < result.length), ∀ p ∈ s,
    result.get ⟨k, hk⟩ ∈ p.children → p.id ∈ result.take k

theorem kahn_main {s : List Commit} (hs : KahnStore s) (rank : String → Nat)
    (hrank : ∀ p ∈ s, ∀ y ∈ p.children, rank p.id < rank y) (fuel : Nat) :
    ∀ (queue : List String) (deg : String → Nat) (result : List String),
      KahnInv s queue deg result →
      queue.length + remDeg s result + 1 ≤ fuel →
      (kahnLoop s fuel queue deg result).Nodup ∧
      (∀ x, x ∈ kahnLoop s fuel queue deg result ↔ x ∈ ids s) ∧
      (∀ (k : Nat) (hk : k < (kahnLoop s fuel queue deg result).length), ∀ p ∈ s,
        (kahnLoop s fuel queue deg result).get ⟨k, hk⟩ ∈ p.children →
          p.id ∈ (kahnLoop s fuel queue deg result).take k) := by
  induction fuel with
  | zero =>
    intro queue deg result _ hfuel
    omega
  | succ fuel ih =>
    intro queue deg result inv hfuel
    match queue with
    | [] =>
      simp only [kahnLoop]
      refine ⟨inv.result_nodup, ?_, inv.ordered⟩
      have complete : ∀ (n : Nat), ∀ y ∈ ids s, rank y < n → y ∈ result := by
        intro n
        induction n with
        | zero => intro y _ h; omega
        | succ m ihm =>
          intro y hy hlt
          by_contra hyr
          obtain ⟨p, hp, hyc, hpr⟩ := inv.pending y hy hyr (List.not_mem_nil y)
          have hr : rank p.id < rank y := hrank p hp y hyc
          have hpids : p.id ∈ ids s := List.mem_map.mpr ⟨p, hp, rfl⟩
          exact hpr (ihm p.id hpids (by omega))
      intro x
      constructor
      · intro hx
        exact inv.result_ids x hx
      · intro hx
        exact complete (rank x + 1) x hx (Nat.lt_succ_self _)
    | x :: tail =>
      obtain ⟨c, hfc⟩ := findCommit_isSome_of_mem_ids (inv.queue_ids x (List.mem_cons_self x tail))
      obtain ⟨hcs, hcid⟩ := findCommit_some s x hfc
      have hchnd : (sortIds s c.children).Nodup :=
        sortIds_nodup (hs.children_nodup c hcs)
      have hfresh : x ∉ result := inv.queue_fresh x (List.mem_cons_self x tail)
      -- closed forms for the new state
      set ch := sortIds s c.children with hch
      set pushed := ch.filter (fun y => deg y == 1) with hpushed
      set deg' : String → Nat := fun y => if y ∈ ch then deg y - 1 else deg y with hdeg'
      set result' := result ++ [x] with hresult'
      have hmemch : ∀ y, y ∈ ch ↔ y ∈ c.children := fun y => sortIds_mem s c.children y
      have hstep : kahnLoop s (fuel + 1) (x :: tail) deg result =
          kahnLoop s fuel (pushed.reverse ++ tail) deg' result' := by
        simp only [kahnLoop, hfc]
        rw [kahnStep_eq ch hchnd tail deg]
      -- key degree equation
      have hkey : ∀ y, indegRem s result y = c.children.count y + indegRem s result' y :=
        fun y => sumRem_step hs.ids_nodup hfc hfresh _
      have hcount1 : ∀ y ∈ c.children, c.children.count y = 1 :=
        fun y hy => List.count_eq_one_of_mem (hs.children_nodup c hcs) hy
      have hcount0 : ∀ y, y ∉ c.children → c.children.count y = 0 :=
        fun y hy => List.count_eq_zero.mpr hy
      have hreadyx : indegRem s result x = 0 := inv.queue_ready x (List.mem_cons_self x tail)
      have hdegspec' : ∀ y, deg' y = indegRem s result' y := by
        intro y
        by_cases hy : y ∈ ch
        · have hy' : y ∈ c.children := (hmemch y).mp hy
          have := hkey y
          rw [hcount1 y hy'] at this
          simp only [hdeg', if_pos hy, inv.deg_spec y, this]
          omega
        · have hy' : y ∉ c.children := fun h => hy ((hmemch y).mpr h)
          have := hkey y
          rw [hcount0 y hy'] at this
          simp only [hdeg', if_neg hy, inv.deg_spec y, this, Nat.zero_add]
      have hpushed_mem : ∀ y, y ∈ pushed ↔ y ∈ c.children ∧ deg y = 1 := by
        intro y
        simp only [hpushed, List.mem_filter, beq_iff_eq]
        exact and_congr (hmemch y) Iff.rfl
      have hpushed_zero : ∀ y ∈ pushed, indegRem s result' y = 0 := by
        intro y hy
        rcases (hpushed_mem y).mp hy with ⟨hyc, hyd⟩
        have := hkey y
        rw [hcount1 y hyc] at this
        rw [inv.deg_spec y] at hyd
        omega
      have htail_zero : ∀ y ∈ tail, indegRem s result' y = 0 := by
        intro y hy
        have h0 := inv.queue_ready y (List.mem_cons_of_mem x hy)
        have hle := indegRem_snoc_le s result x y
        rw [← hresult'] at hle
        omega
      have hxtail : x ∉ tail := (List.nodup_cons.mp inv.queue_nodup).1
      -- the new invariant
      have inv' : KahnInv s (pushed.reverse ++ tail) deg' result' := by
        refine ⟨?_, ?_, ?_, ?_, ?_, ?_, hdegspec', ?_, ?_, ?_⟩
        · refine inv.result_nodup.append (List.nodup_singleton x) ?_
          intro a ha hax
          rw [List.mem_singleton.mp hax] at ha
          exact hfresh ha
        · refine (List.nodup_reverse.mpr (hchnd.filter _)).append inv.queue_nodup.of_cons ?_
          intro a ha hat
          rw [List.mem_reverse] at ha
          have h1 := (hpushed_mem a).mp ha
          have h2 := inv.queue_ready a (List.mem_cons_of_mem x hat)
          rw [inv.deg_spec a] at h1
          omega
        · intro y hy
          rcases List.mem_append.mp hy with hy | hy
          · rw [List.mem_reverse] at hy
            rcases (hpushed_mem y).mp hy with ⟨_, hyd⟩
            intro hyr
            rcases List.mem_append.mp hyr with hyr | hyr
            · have := inv.done_zero y hyr
              rw [inv.deg_spec y] at hyd
              omega
            · have hyx : y = x := List.mem_singleton.mp hyr
              rw [inv.deg_spec y, hyx] at hyd
              omega
          · intro hyr
            rcases List.mem_append.mp hyr with hyr | hyr
            · exact inv.queue_fresh y (List.mem_cons_of_mem x hy) hyr
            · exact hxtail ((List.mem_singleton.mp hyr) ▸ hy)
        · intro y hy
          rcases List.mem_append.mp hy with hy | hy
          · rw [List.mem_reverse] at hy
            rcases (hpushed_mem y).mp hy with ⟨hyc, _⟩
            exact hs.children_closed c hcs y hyc
          · exact inv.queue_ids y (List.mem_cons_of_mem x hy)
        · intro y hy
          rcases List.mem_append.mp hy with hy | hy
          · exact inv.result_ids y hy
          · exact (List.mem_singleton.mp hy) ▸ inv.queue_ids x (List.mem_cons_self x tail)
        · intro y hy
          rcases List.mem_append.mp hy with hy | hy
          · exact hpushed_zero y (List.mem_reverse.mp hy)
          · exact htail_zero y hy
        · intro y hy
          rcases List.mem_append.mp hy with hy | hy
          · have h0 := inv.done_zero y hy
            have hle := indegRem_snoc_le s result x y
            rw [← hresult'] at hle
            omega
          · have hyx : y = x := List.mem_singleton.mp hy
            subst hyx
            have hle := indegRem_snoc_le s result y y
            rw [← hresult'] at hle
            omega
        · intro y hy hyr hyq
          have hyx : y ≠ x := fun he => hyr (he ▸ List.mem_append_right _ (List.mem_singleton.mpr rfl))
          have hyt : y ∉ tail := fun ht => hyq (List.mem_append_right _ ht)
          have hyq0 : y ∉ x :: tail := by
            intro hq
            rcases List.mem_cons.mp hq with h | h
            · exact hyx h
            · exact hyt h
          have hyr0 : y ∉ result := fun hr => hyr (List.mem_append_left _ hr)
          obtain ⟨p, hp, hyc, hpr⟩ := inv.pending y hy hyr0 hyq0
          by_cases hpx : p.id = x
          · have hpc : p = c := findCommit_unique hs.ids_nodup hfc hp hpx
            subst hpc
            have hyp : y ∉ pushed := fun hpu => hyq (List.mem_append_left _ (List.mem_reverse.mpr hpu))
            have hdy : deg y ≠ 1 := by
              intro hd
              exact hyp ((hpushed_mem y).mpr ⟨hyc, hd⟩)
            have hky := hkey y
            rw [hcount1 y hyc] at hky
            rw [inv.deg_spec y] at hdy
            have hne : indegRem s result' y ≠ 0 := by omega
            obtain ⟨q, hq, hqr, hyq2⟩ := indegRem_exists_of_ne_zero hne
            exact ⟨q, hq, hyq2, hqr⟩
          · refine ⟨p, hp, hyc, ?_⟩
            intro hpr'
            rcases List.mem_append.mp hpr' with h | h
            · exact hpr h
            · exact hpx (List.mem_singleton.mp h)
        · intro k hk p hp hget
          have hlen : result'.length = result.length + 1 := by
            simp [hresult']
          by_cases hkl : k < result.length
          · have hget' : result'.get ⟨k, hk⟩ = result.get ⟨k, hkl⟩ := by
              simp only [hresult', List.get_eq_getElem]
              exact List.getElem_append_left hkl
            rw [hget'] at hget
            have := inv.ordered k hkl p hp hget
            rwa [hresult', List.take_append_of_le_length (Nat.le_of_lt hkl)]
          · have hkeq : k = result.length := by omega
            subst hkeq
            have hget' : result'.get ⟨result.length, hk⟩ = x := by
              simp only [hresult', List.get_eq_getElem]
              exact List.getElem_concat_length result x _ rfl (by simp)
            rw [hget'] at hget
            have htake : result'.take result.length = result := by
              rw [hresult']
              exact List.take_left result [x]
            rw [htake]
            by_cases hpres : p.id ∈ result
            · exact hpres
            · exact absurd hget (indegRem_zero_iff.mp hreadyx p hp hpres)
      -- fuel accounting
      have hrem : remDeg s result = c.children.length + remDeg s result' :=
        sumRem_step hs.ids_nodup hfc hfresh _
      have hpl : pushed.length ≤ c.children.length := by
        have h1 : pushed.length ≤ ch.length := List.length_filter_le _ _
        have h2 : ch.length = c.children.length := sortIds_length s c.children
        omega
      have hfuel' : (pushed.reverse ++ tail).length + remDeg s result' + 1 ≤ fuel := by
        simp only [List.length_append, List.length_reverse, List.length_cons] at hfuel ⊢
        omega
      rw [hstep]
      exact ih (pushed.reverse ++ tail) deg' result' inv' hfuel'

theorem mem_initQueue {s : List Commit} {x : String} :
    x ∈ initQueue s ↔ x ∈ ids s ∧ indeg s x = 0 := by
  unfold initQueue
  rw [List.mem_reverse, sortIds_mem, List.mem_filter]
  simp [ids]

theorem initQueue_nodup {s : List Commit} (h : (ids s).Nodup) : (initQueue s).Nodup := by
  unfold initQueue
  rw [List.nodup_reverse]
  exact sortIds_nodup (h.filter _)

theorem initQueue_length_le (s : List Commit) : (initQueue s).length ≤ s.length := by
  unfold initQueue
  rw [List.length_reverse, sortIds_length]
  calc ((s.map Commit.id).filter _).length ≤ (s.map Commit.id).length :=
        List.length_filter_le _ _
    _ = s.length := List.length_map s Commit.id

theorem remDeg_nil (s : List Commit) : remDeg s [] = totalDeg s := by
  unfold remDeg sumRem totalDeg
  rw [remStore_nil]

theorem kahn_init {s : List Commit} (hs : KahnStore s) :
    KahnInv s (initQueue s) (indeg s) [] := by
  refine ⟨List.nodup_nil, initQueue_nodup hs.ids_nodup, ?_, ?_, ?_, ?_, ?_, ?_, ?_, ?_⟩
  · intro x _
    exact List.not_mem_nil x
  · intro x hx
    exact (mem_initQueue.mp hx).1
  · intro x hx
    cases hx
  · intro x hx
    rw [← indeg_eq_indegRem_nil]
    exact (mem_initQueue.mp hx).2
  · intro x
    exact indeg_eq_indegRem_nil s x
  · intro x hx
    cases hx
  · intro x hx _ hxq
    have hne : indeg s x ≠ 0 := by
      intro h0
      exact hxq (mem_initQueue.mpr ⟨hx, h0⟩)
    rw [indeg_eq_indegRem_nil] at hne
    obtain ⟨p, hp, hpr, hxp⟩ := indegRem_exists_of_ne_zero hne
    exact ⟨p, hp, hxp, hpr⟩
  · intro k hk
    simp at hk

/-- Specification of `topological_sort` on a well-formed store with a ranking
function witnessing acyclicity of the children relation: the output is a
duplicate-free enumeration of all store ids in which every commit precedes
every one of its in-store children. -/
theorem topological_sort_spec {s : List Commit} (hs : KahnStore s) (rank : String → Nat)
    (hrank : ∀ p ∈ s, ∀ y ∈ p.children, rank p.id < rank y) :
    (topological_sort s).Nodup ∧
    (∀ x, x ∈ topological_sort s ↔ x ∈ ids s) ∧
    (∀ (k : Nat) (hk : k < (topological_sort s).length), ∀ p ∈ s,
      (topological_sort s).get ⟨k, hk⟩ ∈ p.children →
        p.id ∈ (topological_sort s).take k) := by
  have hfuel : (initQueue s).length + remDeg s [] + 1 ≤ kahnFuel s := by
    have h1 := initQueue_length_le s
    rw [remDeg_nil]
    unfold kahnFuel
    omega
  exact kahn_main hs rank hrank (kahnFuel s) (initQueue s) (indeg s) [] (kahn_init hs) hfuel

theorem indexOf_lt_of_mem_take {x : String} :
    ∀ {l : List String} {n : Nat}, x ∈ l.take n → l.indexOf x < n := by
  intro l
  induction l with
  | nil => intro n h; simp at h
  | cons a t ih =>
    intro n h
    match n with
    | 0 => simp at h
    | m + 1 =>
      rw [List.take_succ_cons] at h
      by_cases hax : a = x
      · rw [List.indexOf_cons_eq t hax]
        omega
      · rcases List.mem_cons.mp h with h | h
        · exact absurd h.symm hax
        · rw [List.indexOf_cons_ne t hax]
          have := ih h
          omega

/-- Index form of topological precedence: parents appear strictly earlier. -/
theorem topological_sort_indexOf_lt {s : List Commit} (hs : KahnStore s) (rank : String → Nat)
    (hrank : ∀ p ∈ s, ∀ y ∈ p.children, rank p.id < rank y)
    {p : Commit} (hp : p ∈ s) {y : String} (hy : y ∈ p.children) :
    (topological_sort s).indexOf p.id < (topological_sort s).indexOf y := by
  obtain ⟨hnd, hmem, hord⟩ := topological_sort_spec hs rank hrank
  set t := topological_sort s with ht
  have hyt : y ∈ t := (hmem y).mpr (hs.children_closed p hp y hy)
  have hkt : t.indexOf y < t.length := List.indexOf_lt_length.mpr hyt
  have hget : t.get ⟨t.indexOf y, hkt⟩ = y := by
    simp only [List.get_eq_getElem]
    exact List.getElem_indexOf hkt
  have hmt := hord (t.indexOf y) hkt p hp (by rw [hget]; exact hy)
  exact indexOf_lt_of_mem_take hmt

/- ### Characterization of build_graph -/

/-- Children list `build_graph` produces for the entry with id `pid`: ids of
the commits listing `pid` among their parents, in store order. -/
def childrenOf (l : List Commit) (pid : String) : List String :=
  (l.filter (fun c => c.parents.contains pid)).map Commit.id

/-- Store state after the parent links of the commits in `pre` are registered. -/
def buildStage (l : List Commit) (pre : List Commit) : List Commit :=
  l.map (fun p => { p with children := childrenOf pre p.id })

theorem addChild_foldl (cid : String) : ∀ (ps : List String) (st : List Commit),
    ps.foldl (fun acc2 parent_id => addChild acc2 parent_id cid) st =
      st.map (fun p =>
        if ps.contains p.id && !(p.children.contains cid) then
          { p with children := p.children ++ [cid] }
        else p) := by
  intro ps
  induction ps with
  | nil =>
    intro st
    simp
  | cons q qs ih =>
    intro st
    rw [List.foldl_cons]
    show qs.foldl (fun acc2 parent_id => addChild acc2 parent_id cid) (addChild st q cid) = _
    rw [ih (addChild st q cid)]
    unfold addChild
    rw [List.map_map]
    apply List.map_congr_left
    intro p _
    simp only [Function.comp]
    by_cases h1 : p.id = q
    · by_cases h2 : cid ∈ p.children
      · simp [h1, h2]
      · simp [h1, h2]
    · by_cases h2 : cid ∈ p.children
      · by_cases h3 : p.id ∈ qs <;> simp [h1, h2, h3]
      · by_cases h3 : p.id ∈ qs <;> simp [h1, h2, h3]

theorem childrenOf_append (pre : List Commit) (c : Commit) (pid : String) :
    childrenOf (pre ++ [c]) pid =
      childrenOf pre pid ++ (if c.parents.contains pid then [c.id] else []) := by
  unfold childrenOf
  rw [List.filter_append, List.map_append]
  congr 1
  by_cases h : pid ∈ c.parents <;> simp [h]

theorem build_fold (l : List Commit) (h1 : (ids l).Nodup) :
    ∀ (suf pre : List Commit), l = pre ++ suf →
      ((suf.map Commit.id).foldl
        (fun acc commit_id =>
          match findCommit acc commit_id with
          | some c => c.parents.foldl (fun acc2 parent_id => addChild acc2 parent_id commit_id) acc
          | none => acc)
        (buildStage l pre)) = buildStage l l := by
  intro suf
  induction suf with
  | nil =>
    intro pre hpre
    simp only [List.map_nil, List.foldl_nil]
    rw [List.append_nil] at hpre
    rw [← hpre]
  | cons c cs ih =>
    intro pre hpre
    have hcl : c ∈ l := by rw [hpre]; exact List.mem_append_right _ (List.mem_cons_self c cs)
    have hfl : findCommit l c.id = some c := findCommit_of_mem h1 hcl
    have hfstage : findCommit (buildStage l pre) c.id =
        some { c with children := childrenOf pre c.id } := by
      unfold findCommit buildStage
      rw [List.find?_map]
      have : ((fun d : Commit => d.id == c.id) ∘
          (fun p => { p with children := childrenOf pre p.id })) =
          (fun d : Commit => d.id == c.id) := by
        funext d
        rfl
      rw [this]
      show (findCommit l c.id).map _ = _
      rw [hfl]
      rfl
    have hcid_not_pre : c.id ∉ ids pre := by
      intro hmem
      have : ids l = ids pre ++ ids (c :: cs) := by rw [hpre]; simp [ids]
      rw [this] at h1
      have hd := List.disjoint_of_nodup_append h1
      exact hd hmem (by simp [ids])
    simp only [List.map_cons, List.foldl_cons, hfstage]
    have hstep : c.parents.foldl (fun acc2 parent_id => addChild acc2 parent_id c.id)
        (buildStage l pre) = buildStage l (pre ++ [c]) := by
      rw [addChild_foldl]
      unfold buildStage
      rw [List.map_map]
      apply List.map_congr_left
      intro p _
      simp only [Function.comp]
      have hnotin : c.id ∉ childrenOf pre p.id := by
        intro hmem
        unfold childrenOf at hmem
        rcases List.mem_map.mp hmem with ⟨d, hd, hdc⟩
        have : c.id ∈ ids pre := List.mem_map.mpr ⟨d, (List.mem_filter.mp hd).1, hdc⟩
        exact hcid_not_pre this
      rw [childrenOf_append]
      by_cases hc : p.id ∈ c.parents
      · simp [hc, hnotin]
      · simp [hc, hnotin]
    rw [hstep]
    exact ih (pre ++ [c]) (by rw [hpre]; simp)

theorem build_graph_eq {l : List Commit} (h1 : (ids l).Nodup)
    (hemp : ∀ c ∈ l, c.children = []) :
    build_graph l = buildStage l l := by
  have h0 : buildStage l [] = l := by
    unfold buildStage childrenOf
    have : ∀ p ∈ l, ({ p with children := (([] : List Commit).filter
        (fun c => c.parents.contains p.id)).map Commit.id }) = p := by
      intro p hp
      have := hemp p hp
      cases p
      simp_all
    calc l.map _ = l.map id := List.map_congr_left this
      _ = l := List.map_id l
  have := build_fold l h1 l [] (by simp)
  rw [h0] at this
  exact this

theorem ids_buildStage (l pre : List Commit) : ids (buildStage l pre) = ids l := by
  unfold ids buildStage
  rw [List.map_map]
  rfl

theorem kahnStore_build {l : List Commit} (h1 : (ids l).Nodup)
    (hemp : ∀ c ∈ l, c.children = []) : KahnStore (build_graph l) := by
  rw [build_graph_eq h1 hemp]
  refine ⟨?_, ?_, ?_⟩
  · rw [ids_buildStage]
    exact h1
  · intro c hc
    rcases List.mem_map.mp hc with ⟨q, _, rfl⟩
    show (childrenOf l q.id).Nodup
    unfold childrenOf
    exact ((List.filter_sublist l).map Commit.id).nodup h1
  · intro c hc x hx
    rcases List.mem_map.mp hc with ⟨q, _, rfl⟩
    rw [ids_buildStage]
    replace hx : x ∈ childrenOf l q.id := hx
    unfold childrenOf at hx
    rcases List.mem_map.mp hx with ⟨d, hd, rfl⟩
    exact List.mem_map.mpr ⟨d, (List.mem_filter.mp hd).1, rfl⟩

theorem children_build_iff {l : List Commit} (h1 : (ids l).Nodup)
    (hemp : ∀ c ∈ l, c.children = []) {p : Commit} (hp : p ∈ build_graph l) (x : String) :
    x ∈ p.children ↔ ∃ d ∈ l, d.id = x ∧ p.id ∈ d.parents := by
  rw [build_graph_eq h1 hemp] at hp
  rcases List.mem_map.mp hp with ⟨q, hq, rfl⟩
  show x ∈ childrenOf l q.id ↔ _
  unfold childrenOf
  constructor
  · intro hx
    rcases List.mem_map.mp hx with ⟨d, hd, rfl⟩
    rcases List.mem_filter.mp hd with ⟨hdl, hdp⟩
    refine ⟨d, hdl, rfl, ?_⟩
    simpa using hdp
  · rintro ⟨d, hdl, rfl, hdp⟩
    exact List.mem_map.mpr ⟨d, List.mem_filter.mpr ⟨hdl, by simpa using hdp⟩, rfl⟩

theorem mem_build_graph {l : List Commit} (h1 : (ids l).Nodup)
    (hemp : ∀ c ∈ l, c.children = []) {c : Commit} (hc : c ∈ l) :
    ({ c with children := childrenOf l c.id }) ∈ build_graph l := by
  rw [build_graph_eq h1 hemp]
  exact List.mem_map.mpr ⟨c, hc, rfl⟩

/- ### Shared corollaries on the full pipeline build_graph + topological_sort -/

theorem topo_ids {l : List Commit} (h1 : (ids l).Nodup) (hemp : ∀ c ∈ l, c.children = []) :
    ids (build_graph l) = ids l := by
  rw [build_graph_eq h1 hemp, ids_buildStage]

theorem topo_rank_children {l : List Commit} (rank : String → Nat) (h1 : (ids l).Nodup)
    (hemp : ∀ c ∈ l, c.children = [])
    (hdag : ∀ c ∈ l, ∀ pid ∈ c.parents, pid ∈ ids l → rank pid < rank c.id) :
    ∀ p ∈ build_graph l, ∀ y ∈ p.children, rank p.id < rank y := by
  intro p hp y hy
  rcases (children_build_iff h1 hemp hp y).mp hy with ⟨d, hd, rfl, hpd⟩
  refine hdag d hd p.id hpd ?_
  have : p.id ∈ ids (build_graph l) := List.mem_map.mpr ⟨p, hp, rfl⟩
  rwa [topo_ids h1 hemp] at this

theorem topo_nodup_mem {l : List Commit} (rank : String → Nat) (h1 : (ids l).Nodup)
    (hemp : ∀ c ∈ l, c.children = [])
    (hdag : ∀ c ∈ l, ∀ pid ∈ c.parents, pid ∈ ids l → rank pid < rank c.id) :
    (topological_sort (build_graph l)).Nodup ∧
    (∀ x, x ∈ topological_sort (build_graph l) ↔ x ∈ ids l) := by
  obtain ⟨hnd, hmem, _⟩ := topological_sort_spec (kahnStore_build h1 hemp) rank
    (topo_rank_children rank h1 hemp hdag)
  refine ⟨hnd, ?_⟩
  intro x
  rw [← topo_ids h1 hemp]
  exact hmem x

theorem topo_parent_lt {l : List Commit} (rank : String → Nat) (h1 : (ids l).Nodup)
    (hemp : ∀ c ∈ l, c.children = [])
    (hdag : ∀ c ∈ l, ∀ pid ∈ c.parents, pid ∈ ids l → rank pid < rank c.id) :
    ∀ c ∈ l, ∀ d ∈ l, c.id ∈ d.parents →
      (topological_sort (build_graph l)).indexOf c.id <
        (topological_sort (build_graph l)).indexOf d.id := by
  intro c hc d hd hcd
  have hp := mem_build_graph h1 hemp hc
  have hy : d.id ∈ ({ c with children := childrenOf l c.id } : Commit).children :=
    (children_build_iff h1 hemp hp d.id).mpr ⟨d, hd, rfl, hcd⟩
  exact topological_sort_indexOf_lt (kahnStore_build h1 hemp) rank
    (topo_rank_children rank h1 hemp hdag) hp hy

/- ### Concrete commit fixtures used by witnesses and counterexamples -/

/-- Test fixture: a commit as the commit source delivers it (children empty). -/
def mkC (i : String) (ps : List String) (ts : Int) : Commit :=
  { id := i, short_id := i, parents := ps, children := [], message := "", author := "",
    timestamp := ts }

/-- Two-commit linear history: root `a`, then `b` with parent `a`. -/
def exLinear2 : List Commit := [mkC "b" ["a"] 2, mkC "a" [] 1]

/-- Rank function on the fixture ids: parents rank below children. -/
def exRank2 : String → Nat := fun x => if x = "a" then 0 else 1

/-- C1: on every store whose parent links form a DAG (witnessed by a rank
function that increases from in-store parent to child), the topological sort
of the built graph emits every loaded commit exactly once, and every commit
strictly precedes each of its in-store children (equivalently, a commit whose
parents include `c` appears at a strictly larger index than `c`). -/
theorem topological_sort_topological (l : List Commit) (rank : String → Nat)
    (h1 : (ids l).Nodup) (hemp : ∀ c ∈ l, c.children = [])
    (hdag : ∀ c ∈ l, ∀ pid ∈ c.parents, pid ∈ ids l → rank pid < rank c.id) :
    (topological_sort (build_graph l)).Nodup ∧
    (∀ x, x ∈ topological_sort (build_graph l) ↔ x ∈ ids l) ∧
    (∀ c ∈ l, ∀ d ∈ l, c.id ∈ d.parents →
      (topological_sort (build_graph l)).indexOf c.id <
        (topological_sort (build_graph l)).indexOf d.id) := by
  obtain ⟨hnd, hmem⟩ := topo_nodup_mem rank h1 hemp hdag
  exact ⟨hnd, hmem, topo_parent_lt rank h1 hemp hdag⟩

/-- Witness for C1 at the two-commit fixture. -/
theorem topological_sort_topological_witness :
    (topological_sort (build_graph exLinear2)).Nodup ∧
    (topological_sort (build_graph exLinear2)).indexOf "a" <
      (topological_sort (build_graph exLinear2)).indexOf "b" := by
  have h := topological_sort_topological exLinear2 exRank2 (by decide) (by decide) (by decide)
  refine ⟨h.1, ?_⟩
  have := h.2.2 (mkC "a" [] 1) (by decide) (mkC "b" ["a"] 2) (by decide) (by decide)
  exact this

/-- C2 counterexample: in the two-commit history `a ← b`, the sorted output is
oldest-to-newest `["a", "b"]`; the parent `a` of `b` appears at index 0, which
is not strictly greater than the index 1 of `b` — the claimed
`index(parent) > index(C)` fails. -/
theorem topo_parent_index_counterexample :
    "a" ∈ (mkC "b" ["a"] 2).parents ∧ mkC "b" ["a"] 2 ∈ exLinear2 ∧
    mkC "a" [] 1 ∈ exLinear2 ∧ (mkC "a" [] 1).id = "a" ∧
    topological_sort (build_graph exLinear2) = ["a", "b"] ∧
    ¬ ((topological_sort (build_graph exLinear2)).indexOf "a" >
       (topological_sort (build_graph exLinear2)).indexOf "b") := by
  decide

/-- C2 amended: for every commit C in the sorted output, every parent of C
present in the store appears strictly EARLIER in the oldest-to-newest
sequence: index(parent) < index(C). -/
theorem topo_parent_index_lt (l : List Commit) (rank : String → Nat)
    (h1 : (ids l).Nodup) (hemp : ∀ c ∈ l, c.children = [])
    (hdag : ∀ c ∈ l, ∀ pid ∈ c.parents, pid ∈ ids l → rank pid < rank c.id) :
    ∀ c ∈ l, ∀ pid ∈ c.parents, pid ∈ ids l →
      (topological_sort (build_graph l)).indexOf pid <
        (topological_sort (build_graph l)).indexOf c.id := by
  intro c hc pid hpid hpids
  rcases List.mem_map.mp hpids with ⟨p, hp, rfl⟩
  exact topo_parent_lt rank h1 hemp hdag p hp c hc hpid

/-- Witness for the amended C2 at the two-commit fixture. -/
theorem topo_parent_index_lt_witness :
    (topological_sort (build_graph exLinear2)).indexOf "a" <
      (topological_sort (build_graph exLinear2)).indexOf "b" := by
  have := topo_parent_index_lt exLinear2 exRank2 (by decide) (by decide) (by decide)
    (mkC "b" ["a"] 2) (by decide) "a" (by decide) (by decide)
  exact this

/- ### Determinism of topological_sort under store iteration order -/

theorem findCommit_perm {l₁ l₂ : List Commit} (hp : l₁.Perm l₂) (h1 : (ids l₁).Nodup)
    (x : String) : findCommit l₁ x = findCommit l₂ x := by
  have h2 : (ids l₂).Nodup := ((hp.map Commit.id).nodup_iff).mp h1
  cases hfc : findCommit l₁ x with
  | some c =>
    obtain ⟨hcs, hcx⟩ := findCommit_some l₁ x hfc
    have hc2 : c ∈ l₂ := hp.mem_iff.mp hcs
    rw [← hcx]
    exact (findCommit_of_mem h2 hc2).symm
  | none =>
    symm
    apply List.find?_eq_none.mpr
    intro d hd
    have hd1 : d ∈ l₁ := hp.mem_iff.mpr hd
    have := List.find?_eq_none.mp hfc d hd1
    exact this

theorem findCommit_buildStage (l pre : List Commit) (x : String) :
    findCommit (buildStage l pre) x =
      (findCommit l x).map (fun p => { p with children := childrenOf pre p.id }) := by
  unfold findCommit buildStage
  rw [List.find?_map]
  congr 1

theorem childrenOf_perm {l₁ l₂ : List Commit} (hp : l₁.Perm l₂) (pid : String) :
    (childrenOf l₁ pid).Perm (childrenOf l₂ pid) :=
  (hp.filter _).map Commit.id

theorem tsOf_buildStage {l₁ l₂ : List Commit} (hp : l₁.Perm l₂) (h1 : (ids l₁).Nodup) :
    tsOf (buildStage l₁ l₁) = tsOf (buildStage l₂ l₂) := by
  funext x
  unfold tsOf
  rw [findCommit_buildStage, findCommit_buildStage, findCommit_perm hp h1 x]
  cases findCommit l₂ x <;> rfl

theorem keyLE_buildStage {l₁ l₂ : List Commit} (hp : l₁.Perm l₂) (h1 : (ids l₁).Nodup) :
    keyLE (buildStage l₁ l₁) = keyLE (buildStage l₂ l₂) := by
  funext a b
  unfold keyLE
  rw [tsOf_buildStage hp h1]

theorem sortIds_congr {s₁ s₂ : List Commit} (hk : keyLE s₁ = keyLE s₂) (l : List String) :
    sortIds s₁ l = sortIds s₂ l := by
  unfold sortIds
  rw [hk]

theorem buildStage_map_sum (l base : List Commit) (f : List String → Nat) :
    ((buildStage l base).map (fun c => f c.children)).sum =
      (l.map (fun q => f (childrenOf base q.id))).sum := by
  unfold buildStage
  rw [List.map_map]
  apply congrArg
  apply List.map_congr_left
  intro q _
  rfl

theorem indeg_buildStage {l₁ l₂ : List Commit} (hp : l₁.Perm l₂) :
    indeg (buildStage l₁ l₁) = indeg (buildStage l₂ l₂) := by
  funext x
  rw [indeg_eq_sum, indeg_eq_sum]
  rw [buildStage_map_sum l₁ l₁ (fun ch => ch.count x),
    buildStage_map_sum l₂ l₂ (fun ch => ch.count x)]
  have hpm : (l₁.map (fun q => (childrenOf l₁ q.id).count x)).Perm
      (l₂.map (fun q => (childrenOf l₁ q.id).count x)) := hp.map _
  rw [hpm.sum_eq]
  apply congrArg
  apply List.map_congr_left
  intro q _
  exact (childrenOf_perm hp q.id).count_eq x

theorem totalDeg_buildStage {l₁ l₂ : List Commit} (hp : l₁.Perm l₂) :
    totalDeg (buildStage l₁ l₁) = totalDeg (buildStage l₂ l₂) := by
  unfold totalDeg
  rw [buildStage_map_sum l₁ l₁ (fun ch => ch.length),
    buildStage_map_sum l₂ l₂ (fun ch => ch.length)]
  have hpm : (l₁.map (fun q => (childrenOf l₁ q.id).length)).Perm
      (l₂.map (fun q => (childrenOf l₁ q.id).length)) := hp.map _
  rw [hpm.sum_eq]
  apply congrArg
  apply List.map_congr_left
  intro q _
  exact (childrenOf_perm hp q.id).length_eq

theorem length_buildStage (l pre : List Commit) : (buildStage l pre).length = l.length :=
  List.length_map l _

theorem kahnFuel_buildStage {l₁ l₂ : List Commit} (hp : l₁.Perm l₂) :
    kahnFuel (buildStage l₁ l₁) = kahnFuel (buildStage l₂ l₂) := by
  unfold kahnFuel
  rw [length_buildStage, length_buildStage, hp.length_eq, totalDeg_buildStage hp]

theorem initQueue_buildStage {l₁ l₂ : List Commit} (hp : l₁.Perm l₂) (h1 : (ids l₁).Nodup) :
    initQueue (buildStage l₁ l₁) = initQueue (buildStage l₂ l₂) := by
  unfold initQueue
  rw [sortIds_congr (keyLE_buildStage hp h1)]
  congr 1
  apply sortIds_eq_of_perm
  have hids : ((buildStage l₁ l₁).map Commit.id).Perm ((buildStage l₂ l₂).map Commit.id) := by
    unfold buildStage
    rw [List.map_map, List.map_map]
    exact hp.map _
  have hcongr : List.filter (fun i => indeg (buildStage l₁ l₁) i == 0)
        ((buildStage l₁ l₁).map Commit.id) =
      List.filter (fun i => indeg (buildStage l₂ l₂) i == 0)
        ((buildStage l₁ l₁).map Commit.id) :=
    List.filter_congr (fun x _ => by rw [indeg_buildStage hp])
  rw [hcongr]
  exact hids.filter _

theorem kahnLoop_congr {s₁ s₂ : List Commit}
    (hfind : ∀ x, (findCommit s₁ x).isSome = (findCommit s₂ x).isSome)
    (hsorted : ∀ x c₁ c₂, findCommit s₁ x = some c₁ → findCommit s₂ x = some c₂ →
      sortIds s₁ c₁.children = sortIds s₂ c₂.children) (fuel : Nat) :
    ∀ (queue : List String) (deg : String → Nat) (result : List String),
      kahnLoop s₁ fuel queue deg result = kahnLoop s₂ fuel queue deg result := by
  induction fuel with
  | zero => intro queue deg result; rfl
  | succ fuel ih =>
    intro queue deg result
    match queue with
    | [] => rfl
    | x :: tail =>
      cases hfc₁ : findCommit s₁ x with
      | some c₁ =>
        have : (findCommit s₂ x).isSome = true := by rw [← hfind x, hfc₁]; rfl
        rcases Option.isSome_iff_exists.mp this with ⟨c₂, hfc₂⟩
        simp only [kahnLoop, hfc₁, hfc₂, hsorted x c₁ c₂ hfc₁ hfc₂]
        exact ih _ _ _
      | none =>
        have h2 : findCommit s₂ x = none := by
          have := hfind x
          rw [hfc₁] at this
          cases hfc₂ : findCommit s₂ x
          · rfl
          · rw [hfc₂] at this
            simp at this
        simp only [kahnLoop, hfc₁, h2]
        exact ih _ _ _

/-- C3 part 1: the topological sort does not depend on the store iteration
order — permuting the loaded commit batch leaves the output unchanged. -/
theorem topological_sort_perm_invariant {l₁ l₂ : List Commit} (hp : l₁.Perm l₂)
    (h1 : (ids l₁).Nodup) (hemp : ∀ c ∈ l₁, c.children = []) :
    topological_sort (build_graph l₁) = topological_sort (build_graph l₂) := by
  have h2 : (ids l₂).Nodup := ((hp.map Commit.id).nodup_iff).mp h1
  have hemp₂ : ∀ c ∈ l₂, c.children = [] := fun c hc => hemp c (hp.mem_iff.mpr hc)
  rw [build_graph_eq h1 hemp, build_graph_eq h2 hemp₂]
  unfold topological_sort
  rw [kahnFuel_buildStage hp, initQueue_buildStage hp h1, indeg_buildStage hp]
  apply kahnLoop_congr
  · intro x
    rw [findCommit_buildStage, findCommit_buildStage, findCommit_perm hp h1 x]
    cases findCommit l₂ x <;> rfl
  · intro x c₁ c₂ hc₁ hc₂
    rw [findCommit_buildStage] at hc₁ hc₂
    rw [findCommit_perm hp h1 x] at hc₁
    cases hfc : findCommit l₂ x with
    | none =>
      rw [hfc] at hc₁
      exact Option.noConfusion hc₁
    | some p =>
      rw [hfc] at hc₁ hc₂
      have hc₁' : ({ p with children := childrenOf l₁ p.id } : Commit) = c₁ :=
        Option.some_inj.mp hc₁
      have hc₂' : ({ p with children := childrenOf l₂ p.id } : Commit) = c₂ :=
        Option.some_inj.mp hc₂
      rw [← hc₁', ← hc₂']
      show sortIds _ (childrenOf l₁ p.id) = sortIds _ (childrenOf l₂ p.id)
      rw [sortIds_congr (keyLE_buildStage hp h1)]
      exact sortIds_eq_of_perm (childrenOf_perm hp p.id)

/- ### App::assign_columns (src/app/mod.rs lines 262-587) -/

/-- The `commit_columns: HashMap<String, usize>` map, embedded as an
association list of its entries; the derived quantities consumed later
(lookup, value maximum, value set) are insertion-order independent. -/
def getCol (m : List (String × Nat)) (k : String) : Option Nat :=
  (m.find? (fun p => p.1 == k)).map Prod.snd

def setCol (m : List (String × Nat)) (k : String) (v : Nat) : List (String × Nat) :=
  if (m.find? (fun p => p.1 == k)).isSome then
    m.map (fun p => if p.1 == k then (k, v) else p)
  else m ++ [(k, v)]

/-- `commit_columns.entry(k).or_insert(v)`. -/
def setColIfAbsent (m : List (String × Nat)) (k : String) (v : Nat) : List (String × Nat) :=
  if (getCol m k).isSome then m else m ++ [(k, v)]

/-- Step 1: follow the first-parent chain from the start commit, collecting the
main-branch ids. The Rust `while let` loop terminates only on stores whose
first-parent links are acyclic; fuel `s.length + 1` dominates the chain length
there (the chain never revisits a commit). -/
def mainChainFrom (s : List Commit) : Nat → String → List String → List String
  | 0, _, acc => acc
  | fuel + 1, current, acc =>
    match findCommit s current with
    | none => acc
    | some c =>
      match c.parents.head? with
      | some fp => mainChainFrom s fuel fp (acc ++ [current])
      | none => acc ++ [current]

/-- `main_branch_commit.or_else(|| sorted_commits.first())` followed by the
first-parent walk. -/
def mainBranchSet (s : List Commit) (sorted : List String)
    (main_branch_commit : Option String) : List String :=
  match main_branch_commit.orElse (fun _ => sorted.head?) with
  | some start => mainChainFrom s (s.length + 1) start []
  | none => []

/-- Step 2: every main-branch commit is pre-assigned column 0 (HashSet
iteration order is irrelevant: all inserted values are equal). -/
def seedCols (mainBranch : List String) : List (String × Nat) :=
  mainBranch.foldl (fun m cid => setCol m cid 0) []

/-- The `lane_live_commits: HashMap<usize, HashSet<String>>` map as a function
from lane to its live set (a missing entry is the empty set, matching
`get(..).map(is_empty).unwrap_or(true)`). -/
def liveInsert (f : Nat → List String) (lane : Nat) (x : String) : Nat → List String :=
  fun l => if l = lane then (if x ∈ f lane then f lane else x :: f lane) else f l

def liveRemove (f : Nat → List String) (lane : Nat) (x : String) : Nat → List String :=
  fun l => if l = lane then (f lane).erase x else f l

/-- The `for lane in 1..next_column` search for a lane with no live commits. -/
def findFreeLane (live : Nat → List String) (nextCol : Nat) : Option Nat :=
  (List.range' 1 (nextCol - 1)).find? (fun lane => (live lane).isEmpty)

/-- Mutable state threaded through PASS 1 (the `active_lanes` set of the Rust
code is omitted: it is written but never read). -/
structure Pass1State where
  cols : List (String × Nat)
  nextCol : Nat
  live : Nat → List String
  nodes : List GraphNode

/-- One iteration of the merged-parents loop of a merge commit
(src/app/mod.rs lines 377-402). -/
def mergeParentStep (acc : List Connection × List (String × Nat) × Nat × (Nat → List String))
    (parent_id : String) : List Connection × List (String × Nat) × Nat × (Nat → List String) :=
  match getCol acc.2.1 parent_id with
  | some pcol => (acc.1 ++ [Connection.MergeFrom pcol], acc.2.1, acc.2.2.1, acc.2.2.2)
  | none =>
    let found := findFreeLane acc.2.2.2 acc.2.2.1
    let col := found.getD acc.2.2.1
    let nc2 := if found.isSome then acc.2.2.1 else acc.2.2.1 + 1
    (acc.1 ++ [Connection.MergeFrom col], setCol acc.2.1 parent_id col, nc2,
      liveInsert acc.2.2.2 col parent_id)

/-- Column determination for one commit (src/app/mod.rs lines 304-331): reuse
the pre-assigned column or the first lane with no live commits, else allocate
a new column; either way the commit becomes live in its column. -/
def pass1Column (st : Pass1State) (commit_id : String) :
    List (String × Nat) × Nat × (Nat → List String) × Nat :=
  match getCol st.cols commit_id with
  | some col => (st.cols, st.nextCol, liveInsert st.live col commit_id, col)
  | none =>
    let found := findFreeLane st.live st.nextCol
    let col := found.getD st.nextCol
    let nextCol := if found.isSome then st.nextCol else st.nextCol + 1
    (setCol st.cols commit_id col, nextCol, liveInsert st.live col commit_id, col)

/-- One iteration of the PASS 1 loop (src/app/mod.rs lines 299-423). -/
def pass1Step (s : List Commit) (sorted : List String) (notInBranch : String → Bool)
    (st : Pass1State) (commit_idx : Nat) (commit_id : String) : Pass1State :=
  match findCommit s commit_id with
  | none => st
  | some commit =>
    let colState := pass1Column st commit_id
    let cols := colState.1
    let nextCol := colState.2.1
    let live := colState.2.2.1
    let column := colState.2.2.2
    match commit.parents with
    | [] =>
      -- root commit: remove from live commits
      let node : GraphNode :=
        { commit := commit, column := column, connections := [],
          in_current_branch := !(notInBranch commit_id) }
      { cols := cols, nextCol := nextCol, live := liveRemove live column commit_id,
        nodes := st.nodes ++ [node] }
    | [parent_id] =>
      let pc := getCol cols parent_id
      let connCols :=
        match pc with
        | some pcol =>
          if pcol ≠ column then ([Connection.BranchTo pcol], cols)
          else ([Connection.Vertical], cols)
        | none => ([Connection.Vertical], setCol cols parent_id column)
      let parent_processed := (sorted.take commit_idx).any (fun i => i == parent_id)
      let live2 := if parent_processed then liveRemove live column commit_id else live
      let node : GraphNode :=
        { commit := commit, column := column, connections := connCols.1,
          in_current_branch := !(notInBranch commit_id) }
      { cols := connCols.2, nextCol := nextCol, live := live2,
        nodes := st.nodes ++ [node] }
    | first_parent_id :: second :: restParents =>
      -- merge commit
      let cols2 := setColIfAbsent cols first_parent_id column
      let merged := (second :: restParents).foldl mergeParentStep
        (([] : List Connection), cols2, nextCol, live)
      let node : GraphNode :=
        { commit := commit, column := column, connections := merged.1,
          in_current_branch := !(notInBranch commit_id) }
      { cols := merged.2.1, nextCol := merged.2.2.1,
        live := liveRemove merged.2.2.2 column commit_id,
        nodes := st.nodes ++ [node] }

/-- The PASS 1 loop over `sorted_commits.iter().enumerate()`. -/
def pass1Go (s : List Commit) (sorted : List String) (notInBranch : String → Bool) :
    Nat → List String → Pass1State → Pass1State
  | _, [], st => st
  | idx, cid :: rest, st =>
    pass1Go s sorted notInBranch (idx + 1) rest (pass1Step s sorted notInBranch st idx cid)

def pass1Init (s : List Commit) (sorted : List String)
    (main_branch_commit : Option String) : Pass1State :=
  { cols := seedCols (mainBranchSet s sorted main_branch_commit), nextCol := 1,
    live := fun _ => [], nodes := [] }

def pass1 (s : List Commit) (sorted : List String) (main_branch_commit : Option String)
    (notInBranch : String → Bool) : Pass1State :=
  pass1Go s sorted notInBranch 0 sorted (pass1Init s sorted main_branch_commit)

/-- `sorted_commits.iter().position(|id| id == parent_id)`. -/
def posOf (sorted : List String) (x : String) : Option Nat :=
  sorted.findIdx? (fun y => y == x)

/-- `lane_extent_map.entry(col).and_modify(min start, max end).or_insert`. -/
def extUpd (ext : Nat → Option (Nat × Nat)) (lane lo hi : Nat) : Nat → Option (Nat × Nat) :=
  fun l => if l = lane then
      match ext lane with
      | some (a, b) => some (min a lo, max b hi)
      | none => some (lo, hi)
    else ext l

/-- `lane_extent_map.entry(parent_col).and_modify(min start).or_insert`. -/
def extUpdStart (ext : Nat → Option (Nat × Nat)) (lane lo : Nat) : Nat → Option (Nat × Nat) :=
  fun l => if l = lane then
      match ext lane with
      | some (a, b) => some (min a lo, b)
      | none => some (lo, lo)
    else ext l

/-- One iteration of the lane-extent computation (src/app/mod.rs lines 434-469). -/
def extentStep (s : List Commit) (sorted : List String) (cols : List (String × Nat))
    (ext : Nat → Option (Nat × Nat)) (idx : Nat) (commit_id : String) :
    Nat → Option (Nat × Nat) :=
  match getCol cols commit_id with
  | none => ext
  | some col =>
    match findCommit s commit_id with
    | none => ext
    | some commit =>
      let max_parent_idx := commit.parents.foldl
        (fun m parent_id =>
          match posOf sorted parent_id with
          | some pidx => max m pidx
          | none => m) idx
      let ext2 := extUpd ext col idx (max_parent_idx + 1)
      if commit.parents.length > 1 then
        commit.parents.foldl
          (fun e parent_id =>
            match getCol cols parent_id with
            | some parent_col => if parent_col ≠ col then extUpdStart e parent_col (idx + 1) else e
            | none => e) ext2
      else ext2

def extentGo (s : List Commit) (sorted : List String) (cols : List (String × Nat)) :
    Nat → List String → (Nat → Option (Nat × Nat)) → (Nat → Option (Nat × Nat))
  | _, [], ext => ext
  | idx, cid :: rest, ext =>
    extentGo s sorted cols (idx + 1) rest (extentStep s sorted cols ext idx cid)

def extentMap (s : List Commit) (sorted : List String) (cols : List (String × Nat)) :
    Nat → Option (Nat × Nat) :=
  extentGo s sorted cols 0 sorted (fun _ => none)

def natSetInsert (l : List Nat) (x : Nat) : List Nat := if x ∈ l then l else x :: l

/-- `commit_columns.values().max().copied().unwrap_or(0)`. -/
def valuesMax (m : List (String × Nat)) : Nat := (m.map Prod.snd).foldl max 0

/-- The set of lanes holding at least one commit. -/
def lanesWithCommits (m : List (String × Nat)) : List Nat :=
  (m.map Prod.snd).foldl natSetInsert []

/-- Compaction state: current lane extents, set of lanes with commits, and the
lane remapping (identity until updated; Rust initializes identity entries for
all lanes `0..=max_lane` and never looks up others). -/
structure CompactState where
  ext : Nat → Option (Nat × Nat)
  lanesWC : List Nat
  mapping : Nat → Nat

/-- The `for candidate in 1..source_lane` search (src/app/mod.rs lines
497-522): first candidate with no commits is reused unconditionally (its
extent is replaced); otherwise the first candidate whose recorded extent does
not overlap the source extent receives the source (its extent becomes the
hull); a candidate with commits but no recorded extent is skipped. -/
def findTargetLane (lanesWC : List Nat) (srcExt : Nat × Nat) :
    (Nat → Option (Nat × Nat)) → List Nat → Option (Nat × (Nat → Option (Nat × Nat)))
  | _, [] => none
  | ext, cand :: rest =>
    if cand ∈ lanesWC then
      match ext cand with
      | some ce =>
        if srcExt.2 ≤ ce.1 ∨ ce.2 ≤ srcExt.1 then
          some (cand, fun l => if l = cand then
            some (min ce.1 srcExt.1, max ce.2 srcExt.2) else ext l)
        else findTargetLane lanesWC srcExt ext rest
      | none => findTargetLane lanesWC srcExt ext rest
    else
      some (cand, fun l => if l = cand then some srcExt else ext l)

/-- One iteration of the compaction loop (src/app/mod.rs lines 487-531). -/
def compactStep (st : CompactState) (source_lane : Nat) : CompactState :=
  if source_lane ∈ st.lanesWC then
    match st.ext source_lane with
    | some srcExt =>
      match findTargetLane st.lanesWC srcExt st.ext (List.range' 1 (source_lane - 1)) with
      | some targetExt =>
        { ext := targetExt.2,
          lanesWC := natSetInsert (st.lanesWC.erase source_lane) targetExt.1,
          mapping := fun l => if l = source_lane then targetExt.1 else st.mapping l }
      | none => st
    | none => st
  else st

def compact (ext0 : Nat → Option (Nat × Nat)) (lanesWC0 : List Nat) (max_lane : Nat) :
    CompactState :=
  (List.range' 1 max_lane).foldl compactStep
    { ext := ext0, lanesWC := lanesWC0, mapping := fun l => l }

def mapConn (mapping : Nat → Nat) : Connection → Connection
  | Connection.BranchTo c => Connection.BranchTo (mapping c)
  | Connection.MergeFrom c => Connection.MergeFrom (mapping c)
  | c => c

def clampConn (max_col : Nat) : Connection → Connection
  | Connection.BranchTo c => Connection.BranchTo (min c max_col)
  | Connection.MergeFrom c => Connection.MergeFrom (min c max_col)
  | c => c

/-- The per-node safety clamp (src/app/mod.rs lines 567-578). -/
def clampNode (max_col : Nat) (n : GraphNode) : GraphNode :=
  { n with
    column := min n.column max_col,
    connections := n.connections.map (clampConn max_col) }

/-- The per-node lane remap application (src/app/mod.rs lines 540-560). -/
def mapNode (mapping : Nat → Nat) (n : GraphNode) : GraphNode :=
  { n with
    column := mapping n.column,
    connections := n.connections.map (mapConn mapping) }

/-- Result of `assign_columns`: the produced nodes plus the `graph_width` and
`active_columns` fields the pass stores on `self`. -/
structure AssignResult where
  nodes : List GraphNode
  graph_width : Nat
  active_columns : List Nat
deriving Repr, DecidableEq

/-- Sorted deduplication as Rust's `sort()` + `dedup()` (adjacent duplicates). -/
def dedupAdj : List Nat → List Nat
  | [] => []
  | [a] => [a]
  | a :: b :: rest => if a = b then dedupAdj (b :: rest) else a :: dedupAdj (b :: rest)

/-- Embedding of `App::assign_columns`. `s` is the commit store, `sorted` the
newest-first commit order, `notInBranch` the externally computed
`commits_not_in_current_branch` classifier; the unused `repo` parameter of the
Rust signature is dropped. -/
def assign_columns (s : List Commit) (sorted : List String)
    (main_branch_commit : Option String) (notInBranch : String → Bool) : AssignResult :=
  let p1 := pass1 s sorted main_branch_commit notInBranch
  let ext0 := extentMap s sorted p1.cols
  let max_lane := valuesMax p1.cols
  let lanesWC0 := lanesWithCommits p1.cols
  let comp := compact ext0 lanesWC0 max_lane
  let cols2 := p1.cols.map (fun p => (p.1, comp.mapping p.2))
  let nodes2 := p1.nodes.map (mapNode comp.mapping)
  let graph_width := valuesMax cols2 + 1
  let max_col := graph_width - 1
  let nodes3 := nodes2.map (clampNode max_col)
  { nodes := nodes3, graph_width := graph_width,
    active_columns := dedupAdj (List.insertionSort (fun a b : Nat => a ≤ b)
      (cols2.map Prod.snd)) }

/- ### Lemmas on the commit-column map -/

theorem getCol_setCol_self (m : List (String × Nat)) (k : String) (v : Nat) :
    getCol (setCol m k v) k = some v := by
  unfold getCol setCol
  by_cases h : (m.find? (fun p => p.1 == k)).isSome
  · rw [if_pos h]
    rw [List.find?_map]
    have hpred : ((fun (p : String × Nat) => p.1 == k) ∘
        (fun p => if p.1 == k then (k, v) else p)) = (fun (p : String × Nat) => p.1 == k) := by
      funext p
      simp only [Function.comp]
      by_cases hp : p.1 = k <;> simp [hp]
    rw [hpred]
    rcases Option.isSome_iff_exists.mp h with ⟨e, he⟩
    rw [he]
    have : e.1 = k := by simpa using List.find?_some he
    simp [this]
  · rw [if_neg h]
    rw [List.find?_append]
    rw [Option.not_isSome_iff_eq_none.mp h]
    simp

theorem getCol_setCol_ne (m : List (String × Nat)) {k k' : String} (v : Nat) (h : k' ≠ k) :
    getCol (setCol m k v) k' = getCol m k' := by
  unfold getCol setCol
  by_cases hs : (m.find? (fun p => p.1 == k)).isSome
  · rw [if_pos hs]
    rw [List.find?_map]
    have hpred : ((fun (p : String × Nat) => p.1 == k') ∘
        (fun p => if p.1 == k then (k, v) else p)) = (fun (p : String × Nat) => p.1 == k') := by
      funext p
      simp only [Function.comp]
      by_cases hp : p.1 = k
      · simp [hp]
      · simp [hp]
    rw [hpred]
    cases hf : m.find? (fun p => p.1 == k') with
    | none => rfl
    | some e =>
      have he : e.1 = k' := by simpa using List.find?_some hf
      have hk : ¬ e.1 = k := by rw [he]; exact h
      simp [hk]
  · rw [if_neg hs]
    rw [List.find?_append]
    cases hf : m.find? (fun p => p.1 == k') with
    | none =>
      simp only [Option.none_or]
      have hkk : ¬ (k == k') = true := by
        simp only [beq_iff_eq]
        exact fun he => h he.symm
      simp [List.find?, hkk]
    | some e => rfl

theorem getCol_setColIfAbsent_ne (m : List (String × Nat)) {k k' : String} (v : Nat)
    (h : k' ≠ k) : getCol (setColIfAbsent m k v) k' = getCol m k' := by
  unfold setColIfAbsent
  by_cases hs : (getCol m k).isSome
  · rw [if_pos hs]
  · rw [if_neg hs]
    unfold getCol
    rw [List.find?_append]
    cases hf : m.find? (fun p => p.1 == k') with
    | none =>
      simp only [Option.none_or]
      have hkk : ¬ (k == k') = true := by
        simp only [beq_iff_eq]
        exact fun he => h he.symm
      simp [List.find?, hkk]
    | some e => rfl

/- ### C7: column boundedness after compaction and the defensive clamp -/

theorem clamp_bounds (ns : List GraphNode) (w : Nat) (hw : 0 < w) :
    ∀ node ∈ ns.map (clampNode (w - 1)),
      node.column < w ∧
      (∀ c, Connection.BranchTo c ∈ node.connections → c < w) ∧
      (∀ c, Connection.MergeFrom c ∈ node.connections → c < w) := by
  intro node hnode
  rcases List.mem_map.mp hnode with ⟨n, _, rfl⟩
  refine ⟨?_, ?_, ?_⟩
  · show min n.column (w - 1) < w
    have := Nat.min_le_right n.column (w - 1)
    omega
  · intro c hc
    have hc' : Connection.BranchTo c ∈ n.connections.map (clampConn (w - 1)) := hc
    rcases List.mem_map.mp hc' with ⟨c₀, _, hm⟩
    cases c₀ with
    | BranchTo d =>
      have hd : Connection.BranchTo (min d (w - 1)) = Connection.BranchTo c := hm
      have hdc : min d (w - 1) = c := by
        injection hd
      have := Nat.min_le_right d (w - 1)
      omega
    | MergeFrom d => exact absurd hm (by simp [clampConn])
    | Vertical => exact absurd hm (by simp [clampConn])
    | ShiftLeft d => exact absurd hm (by simp [clampConn])
    | PassThrough d => exact absurd hm (by simp [clampConn])
  · intro c hc
    have hc' : Connection.MergeFrom c ∈ n.connections.map (clampConn (w - 1)) := hc
    rcases List.mem_map.mp hc' with ⟨c₀, _, hm⟩
    cases c₀ with
    | MergeFrom d =>
      have hd : Connection.MergeFrom (min d (w - 1)) = Connection.MergeFrom c := hm
      have hdc : min d (w - 1) = c := by
        injection hd
      have := Nat.min_le_right d (w - 1)
      omega
    | BranchTo d => exact absurd hm (by simp [clampConn])
    | Vertical => exact absurd hm (by simp [clampConn])
    | ShiftLeft d => exact absurd hm (by simp [clampConn])
    | PassThrough d => exact absurd hm (by simp [clampConn])

/-- C7: after `assign_columns` finishes (compaction plus the defensive clamp),
every produced node's column and every `BranchTo`/`MergeFrom` target column is
strictly below `graph_width` (and trivially at least 0, columns being
naturals). -/
theorem assign_columns_bounded (s : List Commit) (sorted : List String)
    (main_branch_commit : Option String) (notInBranch : String → Bool) :
    ∀ node ∈ (assign_columns s sorted main_branch_commit notInBranch).nodes,
      node.column < (assign_columns s sorted main_branch_commit notInBranch).graph_width ∧
      (∀ c, Connection.BranchTo c ∈ node.connections →
        c < (assign_columns s sorted main_branch_commit notInBranch).graph_width) ∧
      (∀ c, Connection.MergeFrom c ∈ node.connections →
        c < (assign_columns s sorted main_branch_commit notInBranch).graph_width) := by
  intro node hnode
  simp only [assign_columns] at hnode ⊢
  exact clamp_bounds _ _ (Nat.succ_pos _) node hnode

/-- Fixture for the merge scenario: commits A (root), B (parent A),
C (parent A), M (parents [B, C]), M newest. -/
def exMerge : List Commit :=
  [mkC "m" ["b", "c"] 4, mkC "c" ["a"] 3, mkC "b" ["a"] 2, mkC "a" [] 1]

def exMergeSorted : List String := (topological_sort (build_graph exMerge)).reverse

def exMergeResult : AssignResult :=
  assign_columns (build_graph exMerge) exMergeSorted (some "m") (fun _ => false)

/-- The node `assign_columns` produces for the merge commit M in the fixture. -/
def exMergeNodeM : GraphNode :=
  { commit :=
      { id := "m", short_id := "m", parents := ["b", "c"], children := [],
        message := "", author := "", timestamp := 4 },
    column := 0, connections := [Connection.MergeFrom 1], in_current_branch := true }

/-- Witness for C7 at the merge fixture. -/
theorem assign_columns_bounded_witness :
    exMergeNodeM ∈ exMergeResult.nodes ∧
      exMergeNodeM.column < exMergeResult.graph_width ∧
      (∀ c, Connection.MergeFrom c ∈ exMergeNodeM.connections →
        c < exMergeResult.graph_width) := by
  have hmem : exMergeNodeM ∈ exMergeResult.nodes := by decide
  have h := assign_columns_bounded (build_graph exMerge) exMergeSorted (some "m")
    (fun _ => false) exMergeNodeM hmem
  exact ⟨hmem, h.1, h.2.2⟩

/- ### C4: live-lane behavior for commits whose parent lies later in the walk -/

theorem liveInsert_preserve {f : Nat → List String} {lane : Nat} {x : String} {col : Nat}
    {cid : String} (h : cid ∈ f col) : cid ∈ liveInsert f lane x col := by
  unfold liveInsert
  by_cases hc : col = lane
  · subst hc
    simp only [if_pos rfl]
    by_cases hx : x ∈ f col
    · rw [if_pos hx]
      exact h
    · rw [if_neg hx]
      exact List.mem_cons_of_mem x h
  · rw [if_neg hc]
    exact h

theorem liveInsert_self (f : Nat → List String) (lane : Nat) (x : String) :
    x ∈ liveInsert f lane x lane := by
  unfold liveInsert
  simp only [if_pos rfl]
  by_cases hx : x ∈ f lane
  · rw [if_pos hx]
    exact hx
  · rw [if_neg hx]
    exact List.mem_cons_self x _

theorem liveRemove_preserve {f : Nat → List String} {lane : Nat} {x : String} {col : Nat}
    {cid : String} (hne : cid ≠ x) (h : cid ∈ f col) : cid ∈ liveRemove f lane x col := by
  unfold liveRemove
  by_cases hc : col = lane
  · subst hc
    rw [if_pos rfl]
    exact (List.mem_erase_of_ne hne).mpr h
  · rw [if_neg hc]
    exact h

theorem mergeFold_preserves_live (ps : List String)
    (acc : List Connection × List (String × Nat) × Nat × (Nat → List String))
    {col : Nat} {cid : String} (h : cid ∈ acc.2.2.2 col) :
    cid ∈ (ps.foldl mergeParentStep acc).2.2.2 col := by
  induction ps generalizing acc with
  | nil => exact h
  | cons p ps ih =>
    rw [List.foldl_cons]
    apply ih
    unfold mergeParentStep
    cases getCol acc.2.1 p with
    | some pcol => exact h
    | none => exact liveInsert_preserve h

theorem mergeFold_preserves_col (ps : List String)
    (acc : List Connection × List (String × Nat) × Nat × (Nat → List String))
    {k : String} {v : Nat} (h : getCol acc.2.1 k = some v) :
    getCol (ps.foldl mergeParentStep acc).2.1 k = some v := by
  induction ps generalizing acc with
  | nil => exact h
  | cons p ps ih =>
    rw [List.foldl_cons]
    apply ih
    unfold mergeParentStep
    cases hg : getCol acc.2.1 p with
    | some pcol => exact h
    | none =>
      show getCol (setCol acc.2.1 p _) k = some v
      have hne : k ≠ p := by
        intro he
        rw [he] at h
        rw [h] at hg
        cases hg
      rw [getCol_setCol_ne _ _ hne]
      exact h

theorem pass1Column_preserves_col (st : Pass1State) (d : String)
    {k : String} {v : Nat} (h : getCol st.cols k = some v) :
    getCol (pass1Column st d).1 k = some v := by
  unfold pass1Column
  cases hg : getCol st.cols d with
  | some col => exact h
  | none =>
    show getCol (setCol st.cols d _) k = some v
    have hne : k ≠ d := by
      intro he
      rw [he, hg] at h
      cases h
    rw [getCol_setCol_ne _ _ hne]
    exact h

theorem pass1Column_col_self (st : Pass1State) (d : String) :
    getCol (pass1Column st d).1 d = some (pass1Column st d).2.2.2 := by
  unfold pass1Column
  cases hg : getCol st.cols d with
  | some col => exact hg
  | none => exact getCol_setCol_self st.cols d _

theorem pass1Column_live_self (st : Pass1State) (d : String) :
    d ∈ (pass1Column st d).2.2.1 (pass1Column st d).2.2.2 := by
  unfold pass1Column
  cases hg : getCol st.cols d with
  | some col => exact liveInsert_self st.live col d
  | none => exact liveInsert_self st.live _ d

theorem pass1Column_preserves_live (st : Pass1State) (d : String) {cid : String} {col : Nat}
    (h : cid ∈ st.live col) : cid ∈ (pass1Column st d).2.2.1 col := by
  unfold pass1Column
  cases hg : getCol st.cols d with
  | some c => exact liveInsert_preserve h
  | none => exact liveInsert_preserve h

theorem pass1Step_preserves_col (s : List Commit) (sorted : List String)
    (nib : String → Bool) (st : Pass1State) (idx : Nat) (d : String)
    {k : String} {v : Nat} (h : getCol st.cols k = some v) :
    getCol (pass1Step s sorted nib st idx d).cols k = some v := by
  cases hfc : findCommit s d with
  | none =>
    simp only [pass1Step, hfc]
    exact h
  | some commit =>
    simp only [pass1Step, hfc]
    have hcol := pass1Column_preserves_col st d h
    cases hpar : commit.parents with
    | nil =>
      simp only []
      exact hcol
    | cons first rest =>
      cases rest with
      | nil =>
        simp only []
        cases hp : getCol (pass1Column st d).1 first with
        | some pcol =>
          simp only [hp]
          by_cases hne : pcol ≠ (pass1Column st d).2.2.2
          · simp only [if_pos hne]
            exact hcol
          · simp only [if_neg hne]
            exact hcol
        | none =>
          simp only [hp]
          have hnef : k ≠ first := by
            intro he
            rw [he, hp] at hcol
            cases hcol
          show getCol (setCol (pass1Column st d).1 first _) k = some v
          rw [getCol_setCol_ne _ _ hnef]
          exact hcol
      | cons second restParents =>
        simp only []
        apply mergeFold_preserves_col
        show getCol (setColIfAbsent (pass1Column st d).1 first _) k = some v
        unfold setColIfAbsent
        by_cases habs : (getCol (pass1Column st d).1 first).isSome
        · rw [if_pos habs]
          exact hcol
        · rw [if_neg habs]
          unfold getCol at hcol ⊢
          rw [List.find?_append]
          cases hf : (pass1Column st d).1.find? (fun p => p.1 == k) with
          | none =>
            rw [hf] at hcol
            cases hcol
          | some e =>
            rw [hf] at hcol
            simp only [Option.or]
            exact hcol

theorem pass1Step_preserves_live (s : List Commit) (sorted : List String)
    (nib : String → Bool) (st : Pass1State) (idx : Nat) (d : String)
    {cid : String} {col : Nat} (hne : cid ≠ d) (h : cid ∈ st.live col) :
    cid ∈ (pass1Step s sorted nib st idx d).live col := by
  cases hfc : findCommit s d with
  | none =>
    simp only [pass1Step, hfc]
    exact h
  | some commit =>
    simp only [pass1Step, hfc]
    have hlive := pass1Column_preserves_live st d h
    cases hpar : commit.parents with
    | nil =>
      simp only []
      exact liveRemove_preserve hne hlive
    | cons first rest =>
      cases rest with
      | nil =>
        simp only []
        by_cases hpp : ((sorted.take idx).any fun i => i == first) = true
        · simp only [hpp, if_true]
          exact liveRemove_preserve hne hlive
        · simp only [hpp, if_false]
          exact hlive
      | cons second restParents =>
        simp only []
        apply liveRemove_preserve hne
        exact mergeFold_preserves_live _ _ hlive

theorem pass1Step_single_parent (s : List Commit) (sorted : List String)
    (nib : String → Bool) (st : Pass1State) (idx : Nat) (cid : String) (c : Commit)
    (pid : String) (hfc : findCommit s cid = some c) (hpar : c.parents = [pid])
    (hnp : pid ∉ sorted.take idx) :
    getCol (pass1Step s sorted nib st idx cid).cols cid =
        some (pass1Column st cid).2.2.2 ∧
      cid ∈ (pass1Step s sorted nib st idx cid).live (pass1Column st cid).2.2.2 := by
  simp only [pass1Step, hfc, hpar]
  have hcol := pass1Column_col_self st cid
  have hlive := pass1Column_live_self st cid
  have hppf : ((sorted.take idx).any fun i => i == pid) = false := by
    rw [List.any_eq_false]
    intro x hx
    simp only [beq_iff_eq]
    intro hxp
    exact hnp (hxp ▸ hx)
  simp only [hppf, if_false]
  cases hp : getCol (pass1Column st cid).1 pid with
  | some pcol =>
    simp only [hp]
    by_cases hne : pcol ≠ (pass1Column st cid).2.2.2
    · simp only [if_pos hne]
      exact ⟨hcol, hlive⟩
    · simp only [if_neg hne]
      exact ⟨hcol, hlive⟩
  | none =>
    simp only [hp]
    have hnef : cid ≠ pid := by
      intro he
      rw [← he] at hp
      rw [hcol] at hp
      cases hp
    refine ⟨?_, hlive⟩
    show getCol (setCol (pass1Column st cid).1 pid _) cid = _
    rw [getCol_setCol_ne _ _ hnef]
    exact hcol

theorem pass1Go_append (s : List Commit) (sorted : List String) (nib : String → Bool)
    (l₁ : List String) : ∀ (l₂ : List String) (idx : Nat) (st : Pass1State),
    pass1Go s sorted nib idx (l₁ ++ l₂) st =
      pass1Go s sorted nib (idx + l₁.length) l₂ (pass1Go s sorted nib idx l₁ st) := by
  induction l₁ with
  | nil =>
    intro l₂ idx st
    simp [pass1Go]
  | cons c cs ih =>
    intro l₂ idx st
    show pass1Go s sorted nib (idx + 1) (cs ++ l₂) (pass1Step s sorted nib st idx c) = _
    rw [ih l₂ (idx + 1) (pass1Step s sorted nib st idx c)]
    have harith : idx + 1 + cs.length = idx + (cs.length + 1) := by omega
    rw [harith]
    rfl

theorem pass1Go_preserves (s : List Commit) (sorted : List String) (nib : String → Bool)
    (rest : List String) {cid : String} (hrest : cid ∉ rest) :
    ∀ (idx : Nat) (st : Pass1State) (col v : Nat),
      getCol st.cols cid = some v → cid ∈ st.live col →
      getCol (pass1Go s sorted nib idx rest st).cols cid = some v ∧
        cid ∈ (pass1Go s sorted nib idx rest st).live col := by
  induction rest with
  | nil =>
    intro idx st col v hc hl
    exact ⟨hc, hl⟩
  | cons d rest ih =>
    intro idx st col v hc hl
    have hned : cid ≠ d := fun he => hrest (he ▸ List.mem_cons_self d rest)
    have hrest' : cid ∉ rest := fun hr => hrest (List.mem_cons_of_mem d hr)
    show getCol (pass1Go s sorted nib (idx + 1) rest (pass1Step s sorted nib st idx d)).cols
        cid = some v ∧ _
    exact ih hrest' (idx + 1) (pass1Step s sorted nib st idx d) col v
      (pass1Step_preserves_col s sorted nib st idx d hc)
      (pass1Step_preserves_live s sorted nib st idx d hned hl)

/-- C4 amended: during lane assignment a single-parent commit whose parent has
not yet been processed when the commit is walked (in particular any commit
whose parent occurs later in the newest-first traversal) is inserted into its
column's live set and is never removed again — it is still live when the pass
ends, even though the parent is processed before then. A commit leaves a live
set only at its own processing step (single-parent with an already-processed
parent, merge, or root); the lane therefore stays reserved for the rest of the
pass. -/
theorem feature_branch_stays_live (s : List Commit) (mainTip : Option String)
    (nib : String → Bool) (pre suf : List String) (cid pid : String) (c : Commit)
    (hnd : (pre ++ cid :: suf).Nodup)
    (hfc : findCommit s cid = some c)
    (hpar : c.parents = [pid])
    (hlater : pid ∈ suf) :
    ∃ col,
      getCol (pass1 s (pre ++ cid :: suf) mainTip nib).cols cid = some col ∧
      cid ∈ (pass1 s (pre ++ cid :: suf) mainTip nib).live col := by
  have hdisj := List.disjoint_of_nodup_append hnd
  have hpidpre : pid ∉ pre := fun hp => hdisj hp (List.mem_cons_of_mem cid hlater)
  have hcidsuf : cid ∉ suf := by
    rcases List.nodup_append.mp hnd with ⟨_, hnd2, _⟩
    exact (List.nodup_cons.mp hnd2).1
  have htake : (pre ++ cid :: suf).take (0 + pre.length) = pre := by
    rw [Nat.zero_add]
    exact List.take_left pre (cid :: suf)
  unfold pass1
  rw [pass1Go_append s (pre ++ cid :: suf) nib pre (cid :: suf) 0
    (pass1Init s (pre ++ cid :: suf) mainTip)]
  show ∃ col, getCol (pass1Go s (pre ++ cid :: suf) nib (0 + pre.length + 1) suf
      (pass1Step s (pre ++ cid :: suf) nib _ (0 + pre.length) cid)).cols cid = some col ∧ _
  obtain ⟨hc, hl⟩ := pass1Step_single_parent s (pre ++ cid :: suf) nib
    (pass1Go s (pre ++ cid :: suf) nib 0 pre (pass1Init s (pre ++ cid :: suf) mainTip))
    (0 + pre.length) cid c pid hfc hpar (by rw [htake]; exact hpidpre)
  obtain ⟨hc2, hl2⟩ := pass1Go_preserves s (pre ++ cid :: suf) nib suf hcidsuf
    (0 + pre.length + 1) _ _ _ hc hl
  exact ⟨_, hc2, hl2⟩

/-- Fixture for C4: main tip T (parent R), feature tip F (parent R), root R. -/
def exLive : List Commit := [mkC "t" ["r"] 3, mkC "f" ["r"] 2, mkC "r" [] 1]

def exLiveSorted : List String := (topological_sort (build_graph exLive)).reverse

def exLivePass : Pass1State :=
  pass1 (build_graph exLive) exLiveSorted (some "t") (fun _ => false)

/-- C4 counterexample: after the full PASS 1 walk over `exLive` — so after the
parent R of the feature commit F has been processed (it is the last walked
commit) — F is still a member of lane 1's live set: the commit is NOT removed
from the live set once its parent is processed, and the lane never becomes
reusable. -/
theorem live_set_counterexample :
    exLiveSorted = ["t", "f", "r"] ∧
    (findCommit (build_graph exLive) "f").map Commit.parents = some ["r"] ∧
    getCol exLivePass.cols "f" = some 1 ∧
    "f" ∈ exLivePass.live 1 := by
  decide

/-- Witness for the amended C4 at the `exLive` fixture. -/
theorem feature_branch_stays_live_witness :
    ∃ col, getCol exLivePass.cols "f" = some col ∧ "f" ∈ exLivePass.live col := by
  have hs : exLiveSorted = ["t"] ++ "f" :: ["r"] := by decide
  have h := feature_branch_stays_live (build_graph exLive) (some "t") (fun _ => false)
    ["t"] ["r"] "f" "r"
    { id := "f", short_id := "f", parents := ["r"], children := [], message := "",
      author := "", timestamp := 2 }
    (by decide) (by decide) (by decide) (by decide)
  unfold exLivePass
  rw [hs]
  exact h

/- ### C8: the merge scenario -/

/-- C8: on the four-commit input A (root), B (parent A), C (parent A),
M (parents [B, C]) with M as the layout seed, the layout gives M exactly one
`MergeFrom` connection targeting C's assigned column, B and M sit in column 0,
C sits in column 1 (which is at least 1), and `graph_width` is 2 (C's extent
interval overlaps no other non-zero lane — lane 1 is the only one). -/
theorem merge_scenario_layout :
    exMergeResult.nodes.map (fun n => (n.commit.id, n.column, n.connections)) =
      [("m", 0, [Connection.MergeFrom 1]), ("c", 1, [Connection.BranchTo 0]),
       ("b", 0, [Connection.Vertical]), ("a", 0, [])] ∧
    exMergeResult.graph_width = 2 := by
  decide

/- ### C9: sequential short-lived branches and lane reuse after compaction -/

/-- Fixture refuting the universal C9: main chain m0..m6; branch 2 is F2
(branched off m2, merged back by m1), branch 1 is F1 (branched off m5, merged
back by m4); F1 is fully resolved into main before F2 begins and their
row-extent intervals are disjoint. FY is a third, long-running branch (tip
merged by m3, branching from the root m6) whose extent overlaps F1's but not
F2's. -/
def exReuseSplit : List Commit := [
  mkC "m0" ["m1"] 11,
  mkC "m1" ["m2", "f2"] 10,
  mkC "f2" ["m2"] 9,
  mkC "m2" ["m3"] 8,
  mkC "m3" ["m4", "fy"] 7,
  mkC "fy" ["m6"] 6,
  mkC "m4" ["m5", "f1"] 5,
  mkC "f1" ["m5"] 4,
  mkC "m5" ["m6"] 3,
  mkC "m6" [] 2]

def exReuseSplitSorted : List String := (topological_sort (build_graph exReuseSplit)).reverse

def exReuseSplitResult : AssignResult :=
  assign_columns (build_graph exReuseSplit) exReuseSplitSorted (some "m0") (fun _ => false)

/-- C9 counterexample: in `exReuseSplit` the two sequential short-lived
branches F1 (older, fully merged back before F2 begins; extent rows [7, 9))
and F2 (newer; extent rows [2, 4)) end up in DIFFERENT columns after
compaction (F2 in column 1, F1 in column 2): first-fit compaction first merged
the long branch FY into F2's lane, whose hull then overlaps F1's extent. -/
theorem lane_reuse_counterexample :
    exReuseSplitSorted =
      ["m0", "m1", "f2", "m2", "m3", "fy", "m4", "f1", "m5", "m6"] ∧
    (exReuseSplitResult.nodes.map (fun n => (n.commit.id, n.column))).filter
        (fun p => p.1 == "f1" || p.1 == "f2") = [("f2", 1), ("f1", 2)] ∧
    extentMap (build_graph exReuseSplit) exReuseSplitSorted
        (pass1 (build_graph exReuseSplit) exReuseSplitSorted (some "m0")
          (fun _ => false)).cols 1 = some (2, 4) ∧
    extentMap (build_graph exReuseSplit) exReuseSplitSorted
        (pass1 (build_graph exReuseSplit) exReuseSplitSorted (some "m0")
          (fun _ => false)).cols 3 = some (7, 9) := by
  decide

/-- Fixture for the amended C9: the same two sequential short-lived branches
without any third branch lane. -/
def exReuseMin : List Commit := [
  mkC "m0" ["m1"] 8,
  mkC "m1" ["m2", "f2"] 7,
  mkC "f2" ["m2"] 6,
  mkC "m2" ["m3"] 5,
  mkC "m3" ["m4", "f1"] 4,
  mkC "f1" ["m4"] 3,
  mkC "m4" ["m5"] 2,
  mkC "m5" [] 1]

def exReuseMinSorted : List String := (topological_sort (build_graph exReuseMin)).reverse

def exReuseMinResult : AssignResult :=
  assign_columns (build_graph exReuseMin) exReuseMinSorted (some "m0") (fun _ => false)

/-- C9 amended: when the two sequential, non-overlapping short-lived branches
are the only non-main lanes (no other branch lane interferes), compaction
does assign both the same reused column. In `exReuseMin`, PASS 1 places F2 in
lane 1 and F1 in lane 2, and after compaction both occupy column 1 (with
`graph_width` 2). With additional overlapping branch lanes present, first-fit
compaction may separate them (see the counterexample). -/
theorem lane_reuse_minimal :
    getCol (pass1 (build_graph exReuseMin) exReuseMinSorted (some "m0")
      (fun _ => false)).cols "f2" = some 1 ∧
    getCol (pass1 (build_graph exReuseMin) exReuseMinSorted (some "m0")
      (fun _ => false)).cols "f1" = some 2 ∧
    (exReuseMinResult.nodes.map (fun n => (n.commit.id, n.column))).filter
        (fun p => p.1 == "f1" || p.1 == "f2") = [("f2", 1), ("f1", 1)] ∧
    exReuseMinResult.graph_width = 2 := by
  decide

/- ### C3: full layout determinism under store iteration order -/

/-- The part of a commit record the layout logic reads. -/
def commitSig (c : Commit) : String × List String := (c.id, c.parents)

/-- The layout-relevant projection of a produced node: commit id, column,
connection list, branch membership (the embedded commit record additionally
carries the `children` list, whose internal order legitimately follows the
store iteration order and is never consumed by layout or rendering). -/
def nodeSig (n : GraphNode) : String × Nat × List Connection × Bool :=
  (n.commit.id, n.column, n.connections, n.in_current_branch)

theorem sig_cases {s₁ s₂ : List Commit}
    (hsig : ∀ x, (findCommit s₁ x).map commitSig = (findCommit s₂ x).map commitSig)
    (x : String) :
    (findCommit s₁ x = none ∧ findCommit s₂ x = none) ∨
    (∃ c₁ c₂, findCommit s₁ x = some c₁ ∧ findCommit s₂ x = some c₂ ∧
      c₁.id = c₂.id ∧ c₁.parents = c₂.parents) := by
  have h := hsig x
  cases h₁ : findCommit s₁ x with
  | none =>
    rw [h₁] at h
    cases h₂ : findCommit s₂ x with
    | none => exact Or.inl ⟨rfl, rfl⟩
    | some c₂ =>
      rw [h₂] at h
      cases h
  | some c₁ =>
    rw [h₁] at h
    cases h₂ : findCommit s₂ x with
    | none =>
      rw [h₂] at h
      cases h
    | some c₂ =>
      rw [h₂] at h
      have := Option.some_inj.mp h
      refine Or.inr ⟨c₁, c₂, rfl, rfl, ?_, ?_⟩
      · exact congrArg Prod.fst this
      · exact congrArg Prod.snd this

theorem mainChainFrom_congr {s₁ s₂ : List Commit}
    (hsig : ∀ x, (findCommit s₁ x).map commitSig = (findCommit s₂ x).map commitSig)
    (fuel : Nat) : ∀ (cur : String) (acc : List String),
    mainChainFrom s₁ fuel cur acc = mainChainFrom s₂ fuel cur acc := by
  induction fuel with
  | zero => intro cur acc; rfl
  | succ fuel ih =>
    intro cur acc
    rcases sig_cases hsig cur with ⟨h₁, h₂⟩ | ⟨c₁, c₂, h₁, h₂, _, hpar⟩
    · simp only [mainChainFrom, h₁, h₂]
    · simp only [mainChainFrom, h₁, h₂, hpar]
      cases c₂.parents.head? with
      | none => rfl
      | some fp => exact ih fp (acc ++ [cur])

theorem pass1Column_congr {st₁ st₂ : Pass1State} (hc : st₁.cols = st₂.cols)
    (hn : st₁.nextCol = st₂.nextCol) (hl : st₁.live = st₂.live) (cid : String) :
    pass1Column st₁ cid = pass1Column st₂ cid := by
  unfold pass1Column
  rw [hc, hn, hl]

theorem pass1Step_congr {s₁ s₂ : List Commit}
    (hsig : ∀ x, (findCommit s₁ x).map commitSig = (findCommit s₂ x).map commitSig)
    (sorted : List String) (nib : String → Bool)
    {st₁ st₂ : Pass1State}
    (hc : st₁.cols = st₂.cols) (hn : st₁.nextCol = st₂.nextCol) (hl : st₁.live = st₂.live)
    (hns : st₁.nodes.map nodeSig = st₂.nodes.map nodeSig)
    (idx : Nat) (cid : String) :
    (pass1Step s₁ sorted nib st₁ idx cid).cols = (pass1Step s₂ sorted nib st₂ idx cid).cols ∧
    (pass1Step s₁ sorted nib st₁ idx cid).nextCol =
      (pass1Step s₂ sorted nib st₂ idx cid).nextCol ∧
    (pass1Step s₁ sorted nib st₁ idx cid).live = (pass1Step s₂ sorted nib st₂ idx cid).live ∧
    (pass1Step s₁ sorted nib st₁ idx cid).nodes.map nodeSig =
      (pass1Step s₂ sorted nib st₂ idx cid).nodes.map nodeSig := by
  rcases sig_cases hsig cid with ⟨h₁, h₂⟩ | ⟨c₁, c₂, h₁, h₂, hid, hpar⟩
  · simp only [pass1Step, h₁, h₂]
    exact ⟨hc, hn, hl, hns⟩
  · simp only [pass1Step, h₁, h₂]
    rw [pass1Column_congr hc hn hl cid, hpar]
    cases c₂.parents with
    | nil =>
      refine ⟨rfl, rfl, rfl, ?_⟩
      simp only [List.map_append, hns]
      simp [nodeSig, hid]
    | cons first rest =>
      cases rest with
      | nil =>
        refine ⟨rfl, rfl, rfl, ?_⟩
        simp only [List.map_append, hns]
        simp [nodeSig, hid]
      | cons second restParents =>
        refine ⟨rfl, rfl, rfl, ?_⟩
        simp only [List.map_append, hns]
        simp [nodeSig, hid]

theorem pass1Go_congr {s₁ s₂ : List Commit}
    (hsig : ∀ x, (findCommit s₁ x).map commitSig = (findCommit s₂ x).map commitSig)
    (sorted : List String) (nib : String → Bool) (rest : List String) :
    ∀ (idx : Nat) {st₁ st₂ : Pass1State},
    st₁.cols = st₂.cols → st₁.nextCol = st₂.nextCol → st₁.live = st₂.live →
    st₁.nodes.map nodeSig = st₂.nodes.map nodeSig →
    (pass1Go s₁ sorted nib idx rest st₁).cols = (pass1Go s₂ sorted nib idx rest st₂).cols ∧
    (pass1Go s₁ sorted nib idx rest st₁).nextCol =
      (pass1Go s₂ sorted nib idx rest st₂).nextCol ∧
    (pass1Go s₁ sorted nib idx rest st₁).live = (pass1Go s₂ sorted nib idx rest st₂).live ∧
    (pass1Go s₁ sorted nib idx rest st₁).nodes.map nodeSig =
      (pass1Go s₂ sorted nib idx rest st₂).nodes.map nodeSig := by
  induction rest with
  | nil =>
    intro idx st₁ st₂ hc hn hl hns
    exact ⟨hc, hn, hl, hns⟩
  | cons d rest ih =>
    intro idx st₁ st₂ hc hn hl hns
    obtain ⟨hc2, hn2, hl2, hns2⟩ := pass1Step_congr hsig sorted nib hc hn hl hns idx d
    exact ih (idx + 1) hc2 hn2 hl2 hns2

theorem extentStep_congr {s₁ s₂ : List Commit}
    (hsig : ∀ x, (findCommit s₁ x).map commitSig = (findCommit s₂ x).map commitSig)
    (sorted : List String) (cols : List (String × Nat)) (ext : Nat → Option (Nat × Nat))
    (idx : Nat) (cid : String) :
    extentStep s₁ sorted cols ext idx cid = extentStep s₂ sorted cols ext idx cid := by
  unfold extentStep
  cases getCol cols cid with
  | none => rfl
  | some col =>
    rcases sig_cases hsig cid with ⟨h₁, h₂⟩ | ⟨c₁, c₂, h₁, h₂, _, hpar⟩
    · rw [h₁, h₂]
    · simp only [h₁, h₂]
      rw [hpar]

theorem extentGo_congr {s₁ s₂ : List Commit}
    (hsig : ∀ x, (findCommit s₁ x).map commitSig = (findCommit s₂ x).map commitSig)
    (sorted : List String) (cols : List (String × Nat)) (rest : List String) :
    ∀ (idx : Nat) (ext : Nat → Option (Nat × Nat)),
    extentGo s₁ sorted cols idx rest ext = extentGo s₂ sorted cols idx rest ext := by
  induction rest with
  | nil => intro idx ext; rfl
  | cons d rest ih =>
    intro idx ext
    show extentGo s₁ sorted cols (idx + 1) rest (extentStep s₁ sorted cols ext idx d) = _
    rw [extentStep_congr hsig sorted cols ext idx d]
    exact ih (idx + 1) _

theorem extentMap_congr {s₁ s₂ : List Commit}
    (hsig : ∀ x, (findCommit s₁ x).map commitSig = (findCommit s₂ x).map commitSig)
    (sorted : List String) (cols : List (String × Nat)) :
    extentMap s₁ sorted cols = extentMap s₂ sorted cols :=
  extentGo_congr hsig sorted cols sorted 0 (fun _ => none)

theorem map_nodeSig_mapNode (f : Nat → Nat) (ns : List GraphNode) :
    (ns.map (mapNode f)).map nodeSig =
      (ns.map nodeSig).map (fun t => (t.1, f t.2.1, t.2.2.1.map (mapConn f), t.2.2.2)) := by
  rw [List.map_map, List.map_map]
  apply List.map_congr_left
  intro n _
  rfl

theorem map_nodeSig_clampNode (mc : Nat) (ns : List GraphNode) :
    (ns.map (clampNode mc)).map nodeSig =
      (ns.map nodeSig).map (fun t => (t.1, min t.2.1 mc, t.2.2.1.map (clampConn mc), t.2.2.2)) := by
  rw [List.map_map, List.map_map]
  apply List.map_congr_left
  intro n _
  rfl

theorem assign_columns_congr {s₁ s₂ : List Commit}
    (hsig : ∀ x, (findCommit s₁ x).map commitSig = (findCommit s₂ x).map commitSig)
    (hlen : s₁.length = s₂.length) (sorted : List String) (mainTip : Option String)
    (nib : String → Bool) :
    (assign_columns s₁ sorted mainTip nib).nodes.map nodeSig =
      (assign_columns s₂ sorted mainTip nib).nodes.map nodeSig ∧
    (assign_columns s₁ sorted mainTip nib).graph_width =
      (assign_columns s₂ sorted mainTip nib).graph_width ∧
    (assign_columns s₁ sorted mainTip nib).active_columns =
      (assign_columns s₂ sorted mainTip nib).active_columns := by
  have hmb : mainBranchSet s₁ sorted mainTip = mainBranchSet s₂ sorted mainTip := by
    unfold mainBranchSet
    cases mainTip.orElse (fun _ => sorted.head?) with
    | none => rfl
    | some start =>
      calc mainChainFrom s₁ (s₁.length + 1) start []
          = mainChainFrom s₂ (s₁.length + 1) start [] :=
            mainChainFrom_congr hsig (s₁.length + 1) start []
        _ = mainChainFrom s₂ (s₂.length + 1) start [] := by rw [hlen]
  have hinit_cols : (pass1Init s₁ sorted mainTip).cols = (pass1Init s₂ sorted mainTip).cols := by
    unfold pass1Init
    rw [hmb]
  obtain ⟨hcols, _, _, hnodes⟩ := pass1Go_congr hsig sorted nib sorted 0
    hinit_cols rfl rfl rfl
  have hpc : (pass1 s₁ sorted mainTip nib).cols = (pass1 s₂ sorted mainTip nib).cols := hcols
  have hpn : (pass1 s₁ sorted mainTip nib).nodes.map nodeSig =
      (pass1 s₂ sorted mainTip nib).nodes.map nodeSig := hnodes
  have hext : extentMap s₁ sorted (pass1 s₂ sorted mainTip nib).cols =
      extentMap s₂ sorted (pass1 s₂ sorted mainTip nib).cols :=
    extentMap_congr hsig sorted _
  simp only [assign_columns]
  rw [hpc, hext]
  refine ⟨?_, rfl, rfl⟩
  rw [map_nodeSig_clampNode, map_nodeSig_clampNode, map_nodeSig_mapNode, map_nodeSig_mapNode,
    hpn]

set_option maxHeartbeats 1600000 in
/-- C3: re-running topological sort and lane assignment on an identical commit
set — the same commits (ids, parents, timestamps) inserted in any order, hence
under any HashMap iteration order and any derived children order — yields the
identical sorted sequence, an identical column for every commit, an identical
connection list (and branch flag) for every node, and identical `graph_width`
and `active_columns`. -/
theorem layout_deterministic (l₁ l₂ : List Commit) (hp : l₁.Perm l₂)
    (h1 : (ids l₁).Nodup) (hemp : ∀ c ∈ l₁, c.children = [])
    (mainTip : Option String) (nib : String → Bool) :
    topological_sort (build_graph l₁) = topological_sort (build_graph l₂) ∧
    (assign_columns (build_graph l₁) ((topological_sort (build_graph l₁)).reverse)
        mainTip nib).nodes.map nodeSig =
      (assign_columns (build_graph l₂) ((topological_sort (build_graph l₂)).reverse)
        mainTip nib).nodes.map nodeSig ∧
    (assign_columns (build_graph l₁) ((topological_sort (build_graph l₁)).reverse)
        mainTip nib).graph_width =
      (assign_columns (build_graph l₂) ((topological_sort (build_graph l₂)).reverse)
        mainTip nib).graph_width ∧
    (assign_columns (build_graph l₁) ((topological_sort (build_graph l₁)).reverse)
        mainTip nib).active_columns =
      (assign_columns (build_graph l₂) ((topological_sort (build_graph l₂)).reverse)
        mainTip nib).active_columns := by
  have h2 : (ids l₂).Nodup := ((hp.map Commit.id).nodup_iff).mp h1
  have hemp₂ : ∀ c ∈ l₂, c.children = [] := fun c hc => hemp c (hp.mem_iff.mpr hc)
  have hsorted := topological_sort_perm_invariant hp h1 hemp
  have hsig : ∀ x, (findCommit (build_graph l₁) x).map commitSig =
      (findCommit (build_graph l₂) x).map commitSig := by
    intro x
    rw [build_graph_eq h1 hemp, build_graph_eq h2 hemp₂, findCommit_buildStage,
      findCommit_buildStage, findCommit_perm hp h1 x]
    cases findCommit l₂ x <;> rfl
  have hlen : (build_graph l₁).length = (build_graph l₂).length := by
    rw [build_graph_eq h1 hemp, build_graph_eq h2 hemp₂, length_buildStage, length_buildStage]
    exact hp.length_eq
  obtain ⟨ha, hb, hc⟩ := assign_columns_congr hsig hlen
    ((topological_sort (build_graph l₁)).reverse) mainTip nib
  rw [hsorted] at ha hb hc
  refine ⟨hsorted, ?_, ?_, ?_⟩ <;> rw [hsorted]
  exacts [ha, hb, hc]

/-- Witness for C3: the two-commit fixture loaded in both iteration orders. -/
theorem layout_deterministic_witness :
    topological_sort (build_graph exLinear2) =
      topological_sort (build_graph [mkC "a" [] 1, mkC "b" ["a"] 2]) ∧
    (assign_columns (build_graph exLinear2)
        ((topological_sort (build_graph exLinear2)).reverse) (some "b")
        (fun _ => false)).nodes.map nodeSig =
      (assign_columns (build_graph [mkC "a" [] 1, mkC "b" ["a"] 2])
        ((topological_sort (build_graph [mkC "a" [] 1, mkC "b" ["a"] 2])).reverse) (some "b")
        (fun _ => false)).nodes.map nodeSig := by
  have h := layout_deterministic exLinear2 [mkC "a" [] 1, mkC "b" ["a"] 2]
    (by decide) (by decide) (by decide) (some "b") (fun _ => false)
  exact ⟨h.1, h.2.1⟩

/- ### C6: lane extents cover commit intervals; compaction keeps groups disjoint -/

/-- The row-extent interval of one commit placed at row `idx`: from its own row
to one past its furthest in-order parent's row (src/app/mod.rs lines 439-448). -/
def commitInterval (sorted : List String) (idx : Nat) (c : Commit) : Nat × Nat :=
  (idx, (c.parents.foldl
    (fun m parent_id =>
      match posOf sorted parent_id with
      | some pidx => max m pidx
      | none => m) idx) + 1)

/-- `e` is a recorded lane extent that contains the interval `I`. -/
def covers (e : Option (Nat × Nat)) (I : Nat × Nat) : Prop :=
  ∃ a b, e = some (a, b) ∧ a ≤ I.1 ∧ I.2 ≤ b

/-- Growth order on extent entries: an entry never disappears and only widens. -/
def extGrow (e e' : Option (Nat × Nat)) : Prop :=
  ∀ a b, e = some (a, b) → ∃ a' b', e' = some (a', b') ∧ a' ≤ a ∧ b ≤ b'

theorem extGrow_refl (e : Option (Nat × Nat)) : extGrow e e :=
  fun a b h => ⟨a, b, h, le_refl _, le_refl _⟩

theorem extGrow_trans {e₁ e₂ e₃ : Option (Nat × Nat)}
    (h1 : extGrow e₁ e₂) (h2 : extGrow e₂ e₃) : extGrow e₁ e₃ := by
  intro a b h
  obtain ⟨a', b', h', ha, hb⟩ := h1 a b h
  obtain ⟨a'', b'', h'', ha', hb'⟩ := h2 a' b' h'
  exact ⟨a'', b'', h'', le_trans ha' ha, le_trans hb hb'⟩

theorem covers_mono {e e' : Option (Nat × Nat)} {I : Nat × Nat}
    (hc : covers e I) (hg : extGrow e e') : covers e' I := by
  obtain ⟨a, b, he, h1, h2⟩ := hc
  obtain ⟨a', b', he', ha, hb⟩ := hg a b he
  exact ⟨a', b', he', le_trans ha h1, le_trans h2 hb⟩

theorem extUpd_grow (ext : Nat → Option (Nat × Nat)) (lane lo hi l : Nat) :
    extGrow (ext l) (extUpd ext lane lo hi l) := by
  intro a b h
  by_cases hl : l = lane
  · subst hl
    simp only [extUpd, if_pos rfl, h]
    exact ⟨_, _, rfl, min_le_left _ _, le_max_left _ _⟩
  · simp only [extUpd, if_neg hl]
    exact ⟨a, b, h, le_refl _, le_refl _⟩

theorem extUpdStart_grow (ext : Nat → Option (Nat × Nat)) (lane lo l : Nat) :
    extGrow (ext l) (extUpdStart ext lane lo l) := by
  intro a b h
  by_cases hl : l = lane
  · subst hl
    simp only [extUpdStart, if_pos rfl, h]
    exact ⟨_, _, rfl, min_le_left _ _, le_refl _⟩
  · simp only [extUpdStart, if_neg hl]
    exact ⟨a, b, h, le_refl _, le_refl _⟩

theorem mergeExtFold_grow (cols : List (String × Nat)) (col idx : Nat) :
    ∀ (ps : List String) (ext : Nat → Option (Nat × Nat)) (l : Nat),
    extGrow (ext l)
      ((ps.foldl (fun e parent_id =>
        match getCol cols parent_id with
        | some parent_col =>
          if parent_col ≠ col then extUpdStart e parent_col (idx + 1) else e
        | none => e) ext) l) := by
  intro ps
  induction ps with
  | nil => intro ext l; exact extGrow_refl _
  | cons p rest ih =>
    intro ext l
    rw [List.foldl_cons]
    refine extGrow_trans ?_ (ih _ l)
    cases h : getCol cols p with
    | none => simp only [h]; exact extGrow_refl _
    | some pc =>
      simp only [h]
      by_cases hpc : pc ≠ col
      · rw [if_pos hpc]; exact extUpdStart_grow ext pc (idx + 1) l
      · rw [if_neg hpc]; exact extGrow_refl _

theorem extentStep_grow (s : List Commit) (sorted : List String) (cols : List (String × Nat))
    (ext : Nat → Option (Nat × Nat)) (idx : Nat) (cid : String) (l : Nat) :
    extGrow (ext l) (extentStep s sorted cols ext idx cid l) := by
  unfold extentStep
  cases h1 : getCol cols cid with
  | none => exact extGrow_refl _
  | some col =>
    cases h2 : findCommit s cid with
    | none => exact extGrow_refl _
    | some c =>
      simp only
      by_cases hp : c.parents.length > 1
      · rw [if_pos hp]
        exact extGrow_trans (extUpd_grow ext col idx _ l)
          (mergeExtFold_grow cols col idx c.parents _ l)
      · rw [if_neg hp]
        exact extUpd_grow ext col idx _ l

theorem extUpd_covers_self (ext : Nat → Option (Nat × Nat)) (lane lo hi : Nat) :
    covers (extUpd ext lane lo hi lane) (lo, hi) := by
  unfold extUpd
  rw [if_pos rfl]
  cases hx : ext lane with
  | none => exact ⟨lo, hi, rfl, le_refl _, le_refl _⟩
  | some p =>
    obtain ⟨a, b⟩ := p
    exact ⟨min a lo, max b hi, rfl, min_le_right _ _, le_max_right _ _⟩

theorem extentStep_covers_self (s : List Commit) (sorted : List String)
    (cols : List (String × Nat)) (ext : Nat → Option (Nat × Nat)) (idx : Nat)
    (cid : String) (col : Nat) (c : Commit)
    (h1 : getCol cols cid = some col) (h2 : findCommit s cid = some c) :
    covers (extentStep s sorted cols ext idx cid col) (commitInterval sorted idx c) := by
  unfold extentStep
  rw [h1, h2]
  simp only [commitInterval]
  by_cases hp : c.parents.length > 1
  · rw [if_pos hp]
    exact covers_mono (extUpd_covers_self ext col idx _)
      (mergeExtFold_grow cols col idx c.parents _ col)
  · rw [if_neg hp]
    exact extUpd_covers_self ext col idx _

theorem extentGo_grow (s : List Commit) (sorted : List String) (cols : List (String × Nat)) :
    ∀ (rest : List String) (i : Nat) (ext : Nat → Option (Nat × Nat)) (l : Nat),
    extGrow (ext l) (extentGo s sorted cols i rest ext l)
  | [], _, _, _ => extGrow_refl _
  | cid :: rest, i, ext, l =>
    extGrow_trans (extentStep_grow s sorted cols ext i cid l)
      (extentGo_grow s sorted cols rest (i + 1) _ l)

theorem extentGo_covers (s : List Commit) (sorted : List String) (cols : List (String × Nat))
    (cid : String) (c : Commit) (col : Nat)
    (h1 : getCol cols cid = some col) (h2 : findCommit s cid = some c) :
    ∀ (pre post : List String) (i : Nat) (ext : Nat → Option (Nat × Nat)),
    covers (extentGo s sorted cols i (pre ++ cid :: post) ext col)
      (commitInterval sorted (i + pre.length) c) := by
  intro pre
  induction pre with
  | nil =>
    intro post i ext
    simp only [List.nil_append, List.length_nil, Nat.add_zero]
    show covers (extentGo s sorted cols (i + 1) post (extentStep s sorted cols ext i cid) col) _
    exact covers_mono (extentStep_covers_self s sorted cols ext i cid col c h1 h2)
      (extentGo_grow s sorted cols post (i + 1) _ col)
  | cons d pre ih =>
    intro post i ext
    simp only [List.cons_append, List.length_cons]
    show covers (extentGo s sorted cols (i + 1) (pre ++ cid :: post)
      (extentStep s sorted cols ext i d) col) _
    have hidx : i + (pre.length + 1) = (i + 1) + pre.length := by omega
    rw [hidx]
    exact ih post (i + 1) (extentStep s sorted cols ext i d)

theorem extentMap_covers (s : List Commit) (cols : List (String × Nat))
    (cid : String) (c : Commit) (col : Nat) {sorted : List String} (pre post : List String)
    (hs : sorted = pre ++ cid :: post)
    (h1 : getCol cols cid = some col) (h2 : findCommit s cid = some c) :
    covers (extentMap s sorted cols col) (commitInterval sorted pre.length c) := by
  subst hs
  unfold extentMap
  have h := extentGo_covers s (pre ++ cid :: post) cols cid c col h1 h2 pre post 0
    (fun _ => none)
  rwa [Nat.zero_add] at h

theorem mem_natSetInsert_self (l : List Nat) (x : Nat) : x ∈ natSetInsert l x := by
  unfold natSetInsert
  by_cases h : x ∈ l
  · rw [if_pos h]; exact h
  · rw [if_neg h]; exact List.mem_cons_self x l

theorem mem_natSetInsert_of_mem {l : List Nat} {a : Nat} (x : Nat) (h : a ∈ l) :
    a ∈ natSetInsert l x := by
  unfold natSetInsert
  by_cases hx : x ∈ l
  · rw [if_pos hx]; exact h
  · rw [if_neg hx]; exact List.mem_cons_of_mem x h

theorem mem_foldl_natSetInsert (l : List Nat) :
    ∀ (acc : List Nat) (x : Nat), x ∈ acc → x ∈ l.foldl natSetInsert acc := by
  induction l with
  | nil => intro acc x h; exact h
  | cons a rest ih =>
    intro acc x h
    rw [List.foldl_cons]
    exact ih (natSetInsert acc a) x (mem_natSetInsert_of_mem a h)

theorem self_mem_foldl_natSetInsert (l : List Nat) :
    ∀ (acc : List Nat) (x : Nat), x ∈ l → x ∈ l.foldl natSetInsert acc := by
  induction l with
  | nil => intro acc x h; cases h
  | cons a rest ih =>
    intro acc x h
    rw [List.foldl_cons]
    rcases List.mem_cons.mp h with rfl | h
    · exact mem_foldl_natSetInsert rest (natSetInsert acc x) x (mem_natSetInsert_self acc x)
    · exact ih (natSetInsert acc a) x h

theorem mem_map_snd_of_getCol {m : List (String × Nat)} {cid : String} {col : Nat}
    (h : getCol m cid = some col) : col ∈ m.map Prod.snd := by
  unfold getCol at h
  cases hf : m.find? (fun p => p.1 == cid) with
  | none => rw [hf] at h; cases h
  | some p =>
    rw [hf] at h
    have hm := List.mem_of_find?_eq_some hf
    have hp : p.2 = col := Option.some_inj.mp h
    rw [← hp]
    exact List.mem_map_of_mem Prod.snd hm

theorem lane_mem_lanesWithCommits (m : List (String × Nat)) (cid : String) (col : Nat)
    (h : getCol m cid = some col) : col ∈ lanesWithCommits m := by
  unfold lanesWithCommits
  exact self_mem_foldl_natSetInsert _ [] col (mem_map_snd_of_getCol h)

/-- What a successful candidate search reports: the target is one of the
candidates, and the updated extent table records either a replacement (target
without commits) or a hull with a non-overlapping recorded extent. -/
theorem findTargetLane_spec (lanesWC : List Nat) (srcExt : Nat × Nat) :
    ∀ (cands : List Nat) (ext : Nat → Option (Nat × Nat)) (t : Nat)
    (ext' : Nat → Option (Nat × Nat)),
    findTargetLane lanesWC srcExt ext cands = some (t, ext') →
    t ∈ cands ∧
    ((t ∉ lanesWC ∧ ext' = fun l => if l = t then some srcExt else ext l) ∨
     (t ∈ lanesWC ∧ ∃ ce, ext t = some ce ∧ (srcExt.2 ≤ ce.1 ∨ ce.2 ≤ srcExt.1) ∧
       ext' = fun l => if l = t then
         some (min ce.1 srcExt.1, max ce.2 srcExt.2) else ext l)) := by
  intro cands
  induction cands with
  | nil =>
    intro ext t ext' h
    exact absurd h (by simp [findTargetLane])
  | cons cand rest ih =>
    intro ext t ext' h
    rw [findTargetLane] at h
    by_cases hc : cand ∈ lanesWC
    · rw [if_pos hc] at h
      cases hce : ext cand with
      | none =>
        rw [hce] at h
        obtain ⟨hmem, hcase⟩ := ih ext t ext' h
        exact ⟨List.mem_cons_of_mem cand hmem, hcase⟩
      | some ce =>
        simp only [hce] at h
        by_cases hov : srcExt.2 ≤ ce.1 ∨ ce.2 ≤ srcExt.1
        · rw [if_pos hov] at h
          rw [Option.some_inj, Prod.mk.injEq] at h
          obtain ⟨ht, hext⟩ := h
          subst ht
          exact ⟨List.mem_cons_self cand rest, Or.inr ⟨hc, ce, hce, hov, hext.symm⟩⟩
        · rw [if_neg hov] at h
          obtain ⟨hmem, hcase⟩ := ih ext t ext' h
          exact ⟨List.mem_cons_of_mem cand hmem, hcase⟩
    · rw [if_neg hc] at h
      rw [Option.some_inj, Prod.mk.injEq] at h
      obtain ⟨ht, hext⟩ := h
      subst ht
      exact ⟨List.mem_cons_self cand rest, Or.inl ⟨hc, hext.symm⟩⟩

/-- Invariant of the compaction loop after every source lane below `s` has been
processed, relative to the initial extent table `ext0` and the initial set
`lanesWC0` of lanes holding commits. -/
structure CompactInv (ext0 : Nat → Option (Nat × Nat)) (lanesWC0 : List Nat)
    (s : Nat) (st : CompactState) : Prop where
  mono : ∀ l, st.mapping l ≤ l
  untouched : ∀ l, s ≤ l → st.mapping l = l
  extFixed : ∀ l, s ≤ l → st.ext l = ext0 l
  inWC : ∀ x ∈ lanesWC0, st.mapping x ∈ st.lanesWC
  cover : ∀ x ∈ lanesWC0, ∀ e, ext0 x = some e →
    ∃ E, st.ext (st.mapping x) = some E ∧ E.1 ≤ e.1 ∧ e.2 ≤ E.2
  disj : ∀ x ∈ lanesWC0, ∀ y ∈ lanesWC0, x ≠ y →
    ∀ ex ey, ext0 x = some ex → ext0 y = some ey →
    st.mapping x = st.mapping y → ex.2 ≤ ey.1 ∨ ey.2 ≤ ex.1

theorem CompactInv.weaken {ext0 : Nat → Option (Nat × Nat)} {lanesWC0 : List Nat}
    {s : Nat} {st : CompactState} (inv : CompactInv ext0 lanesWC0 s st) :
    CompactInv ext0 lanesWC0 (s + 1) st :=
  ⟨inv.mono, fun l hl => inv.untouched l (by omega),
   fun l hl => inv.extFixed l (by omega), inv.inWC, inv.cover, inv.disj⟩

/-- Processing one source lane preserves the compaction invariant. -/
theorem compactStep_inv {ext0 : Nat → Option (Nat × Nat)} {lanesWC0 : List Nat}
    {s : Nat} {st : CompactState} (inv : CompactInv ext0 lanesWC0 s st) :
    CompactInv ext0 lanesWC0 (s + 1) (compactStep st s) := by
  have hmap_ne : ∀ x, x ≠ s → st.mapping x ≠ s := by
    intro x hx hem
    rcases lt_or_ge x s with hlt | hge
    · have hm := inv.mono x
      rw [hem] at hm
      omega
    · have hu := inv.untouched x hge
      rw [hu] at hem
      exact hx hem
  by_cases h1 : s ∈ st.lanesWC
  · cases h2 : st.ext s with
    | none =>
      simp only [compactStep, h1, h2, if_true]
      exact inv.weaken
    | some srcExt =>
      cases h3 : findTargetLane st.lanesWC srcExt st.ext (List.range' 1 (s - 1)) with
      | none =>
        simp only [compactStep, h1, h2, h3, if_true]
        exact inv.weaken
      | some tp =>
        obtain ⟨t, ext'⟩ := tp
        simp only [compactStep, h1, h2, h3, if_true]
        obtain ⟨htmem, hspec⟩ := findTargetLane_spec st.lanesWC srcExt _ st.ext t ext' h3
        have hts : t < s := by
          have hr := List.mem_range'_1.mp htmem
          omega
        have hexts : ext0 s = some srcExt := by
          rw [← inv.extFixed s (le_refl s)]
          exact h2
        have hmono : ∀ l, (if l = s then t else st.mapping l) ≤ l := by
          intro l
          by_cases hl : l = s
          · rw [if_pos hl]; omega
          · rw [if_neg hl]; exact inv.mono l
        have hunt : ∀ l, s + 1 ≤ l → (if l = s then t else st.mapping l) = l := by
          intro l hl
          rw [if_neg (by omega : l ≠ s)]
          exact inv.untouched l (by omega)
        have hfix : ∀ l, s + 1 ≤ l → ext' l = ext0 l := by
          intro l hl
          have hlt : l ≠ t := by omega
          rcases hspec with ⟨_, hext⟩ | ⟨_, ce, _, _, hext⟩
          · rw [hext]
            simp only [if_neg hlt]
            exact inv.extFixed l (by omega)
          · rw [hext]
            simp only [if_neg hlt]
            exact inv.extFixed l (by omega)
        have hwc : ∀ x ∈ lanesWC0,
            (if x = s then t else st.mapping x) ∈ natSetInsert (st.lanesWC.erase s) t := by
          intro x hx
          by_cases hxs : x = s
          · rw [if_pos hxs]
            exact mem_natSetInsert_self _ _
          · rw [if_neg hxs]
            exact mem_natSetInsert_of_mem t
              ((List.mem_erase_of_ne (hmap_ne x hxs)).mpr (inv.inWC x hx))
        have hcov : ∀ x ∈ lanesWC0, ∀ e, ext0 x = some e →
            ∃ E, ext' (if x = s then t else st.mapping x) = some E ∧
              E.1 ≤ e.1 ∧ e.2 ≤ E.2 := by
          intro x hx e he
          by_cases hxs : x = s
          · subst hxs
            rw [if_pos rfl]
            have hse : srcExt = e := Option.some_inj.mp (hexts.symm.trans he)
            rcases hspec with ⟨_, hext⟩ | ⟨_, ce, hce, _, hext⟩
            · refine ⟨srcExt, ?_, ?_, ?_⟩
              · rw [hext]; exact if_pos rfl
              · rw [hse]
              · rw [hse]
            · refine ⟨(min ce.1 srcExt.1, max ce.2 srcExt.2), ?_, ?_, ?_⟩
              · rw [hext]; exact if_pos rfl
              · show min ce.1 srcExt.1 ≤ e.1
                rw [← hse]
                exact min_le_right _ _
              · show e.2 ≤ max ce.2 srcExt.2
                rw [← hse]
                exact le_max_right _ _
          · rw [if_neg hxs]
            obtain ⟨E, hE, hE1, hE2⟩ := inv.cover x hx e he
            by_cases hmt : st.mapping x = t
            · rcases hspec with ⟨htw, hext⟩ | ⟨_, ce, hce, _, hext⟩
              · exact absurd (hmt ▸ inv.inWC x hx) htw
              · have hEce : E = ce := by
                  rw [hmt] at hE
                  exact Option.some_inj.mp (hE.symm.trans hce)
                refine ⟨(min ce.1 srcExt.1, max ce.2 srcExt.2), ?_, ?_, ?_⟩
                · rw [hmt, hext]; exact if_pos rfl
                · exact le_trans (min_le_left _ _) (hEce ▸ hE1)
                · exact le_trans (hEce ▸ hE2) (le_max_left _ _)
            · refine ⟨E, ?_, hE1, hE2⟩
              rcases hspec with ⟨_, hext⟩ | ⟨_, ce, hce, _, hext⟩
              · rw [hext]; simp only [if_neg hmt]; exact hE
              · rw [hext]; simp only [if_neg hmt]; exact hE
        have hdisj : ∀ x ∈ lanesWC0, ∀ y ∈ lanesWC0, x ≠ y → ∀ ex ey,
            ext0 x = some ex → ext0 y = some ey →
            (if x = s then t else st.mapping x) = (if y = s then t else st.mapping y) →
            ex.2 ≤ ey.1 ∨ ey.2 ≤ ex.1 := by
          intro x hx y hy hxy ex ey hex hey hmm
          by_cases hxs : x = s <;> by_cases hys : y = s
          · exact absurd (hxs.trans hys.symm) hxy
          · subst hxs
            rw [if_pos rfl, if_neg hys] at hmm
            have hyt : st.mapping y = t := hmm.symm
            have hse : srcExt = ex := Option.some_inj.mp (hexts.symm.trans hex)
            obtain ⟨E, hE, hE1, hE2⟩ := inv.cover y hy ey hey
            rcases hspec with ⟨htw, _⟩ | ⟨_, ce, hce, hov, _⟩
            · exact absurd (hyt ▸ inv.inWC y hy) htw
            · have hEce : E = ce := by
                rw [hyt] at hE
                exact Option.some_inj.mp (hE.symm.trans hce)
              rcases hov with h | h
              · left
                calc ex.2 = srcExt.2 := by rw [hse]
                  _ ≤ ce.1 := h
                  _ = E.1 := by rw [hEce]
                  _ ≤ ey.1 := hE1
              · right
                calc ey.2 ≤ E.2 := hE2
                  _ = ce.2 := by rw [hEce]
                  _ ≤ srcExt.1 := h
                  _ = ex.1 := by rw [hse]
          · subst hys
            rw [if_neg hxs, if_pos rfl] at hmm
            have hse : srcExt = ey := Option.some_inj.mp (hexts.symm.trans hey)
            obtain ⟨E, hE, hE1, hE2⟩ := inv.cover x hx ex hex
            rcases hspec with ⟨htw, _⟩ | ⟨_, ce, hce, hov, _⟩
            · exact absurd (hmm ▸ inv.inWC x hx) htw
            · have hEce : E = ce := by
                rw [hmm] at hE
                exact Option.some_inj.mp (hE.symm.trans hce)
              rcases hov with h | h
              · right
                calc ey.2 = srcExt.2 := by rw [hse]
                  _ ≤ ce.1 := h
                  _ = E.1 := by rw [hEce]
                  _ ≤ ex.1 := hE1
              · left
                calc ex.2 ≤ E.2 := hE2
                  _ = ce.2 := by rw [hEce]
                  _ ≤ srcExt.1 := h
                  _ = ey.1 := by rw [hse]
          · rw [if_neg hxs, if_neg hys] at hmm
            exact inv.disj x hx y hy hxy ex ey hex hey hmm
        exact ⟨hmono, hunt, hfix, hwc, hcov, hdisj⟩
  · simp only [compactStep, h1, if_false]
    exact inv.weaken

theorem compact_fold_inv (ext0 : Nat → Option (Nat × Nat)) (lanesWC0 : List Nat) :
    ∀ (k s : Nat) (st : CompactState), CompactInv ext0 lanesWC0 s st →
    CompactInv ext0 lanesWC0 (s + k) ((List.range' s k).foldl compactStep st) := by
  intro k
  induction k with
  | zero => intro s st inv; exact inv
  | succ k ih =>
    intro s st inv
    rw [List.range'_succ, List.foldl_cons]
    have h := ih (s + 1) (compactStep st s) (compactStep_inv inv)
    rw [show s + (k + 1) = (s + 1) + k by omega]
    exact h

theorem compact_inv_init (ext0 : Nat → Option (Nat × Nat)) (lanesWC0 : List Nat) :
    CompactInv ext0 lanesWC0 1 { ext := ext0, lanesWC := lanesWC0, mapping := fun l => l } := by
  refine ⟨fun l => le_refl l, fun l _ => rfl, fun l _ => rfl, fun x hx => hx, ?_, ?_⟩
  · intro x hx e he
    exact ⟨e, he, le_refl _, le_refl _⟩
  · intro x hx y hy hxy ex ey hex hey hmap
    exact absurd hmap hxy

theorem compact_inv (ext0 : Nat → Option (Nat × Nat)) (lanesWC0 : List Nat) (max_lane : Nat) :
    CompactInv ext0 lanesWC0 (1 + max_lane) (compact ext0 lanesWC0 max_lane) := by
  unfold compact
  exact compact_fold_inv ext0 lanesWC0 max_lane 1 _ (compact_inv_init ext0 lanesWC0)

/-- C6 counterexample: read literally over all pairs of distinct commits in the
same post-compaction column, the non-overlap property fails already on the
two-commit linear history: `b` (row 0) and `a` (row 1) both sit in column 0,
with row-extent intervals [0,2) and [1,2) that share row 1, which is interior
to [0,2), not merely a boundary. The property can only hold for commits coming
from distinct pre-compaction lanes. -/
theorem same_column_overlap_counterexample :
    (topological_sort (build_graph exLinear2)).reverse = ["b", "a"] ∧
    ((assign_columns (build_graph exLinear2)
        ((topological_sort (build_graph exLinear2)).reverse) (some "b")
        (fun _ => false)).nodes.map (fun n => (n.commit.id, n.column)))
      = [("b", 0), ("a", 0)] ∧
    (findCommit (build_graph exLinear2) "b").map
        (commitInterval ((topological_sort (build_graph exLinear2)).reverse) 0)
      = some (0, 2) ∧
    (findCommit (build_graph exLinear2) "a").map
        (commitInterval ((topological_sort (build_graph exLinear2)).reverse) 1)
      = some (1, 2) ∧
    ¬(((0:Nat), (2:Nat)).2 ≤ ((1:Nat), (2:Nat)).1 ∨
      ((1:Nat), (2:Nat)).2 ≤ ((0:Nat), (2:Nat)).1) := by
  decide

/-- C6 (amended): after the compaction pass, any two distinct commits that
occupy the same post-compaction column but came from two DIFFERENT
pre-compaction lanes have non-overlapping row-extent intervals under the
half-open reading (intervals of commits sharing one pre-compaction lane — e.g.
consecutive commits of one branch — legitimately overlap; the non-overlap
guarantee is exactly what compaction checks before merging two lanes). -/
theorem compaction_no_overlap
    (s : List Commit) (sorted : List String) (mt : Option String) (nib : String → Bool)
    (ci cj : String) (c_i c_j : Commit) (li lj : Nat)
    (prei posti prej postj : List String)
    (hsi : sorted = prei ++ ci :: posti) (hsj : sorted = prej ++ cj :: postj)
    (hfi : findCommit s ci = some c_i) (hfj : findCommit s cj = some c_j)
    (hli : getCol (pass1 s sorted mt nib).cols ci = some li)
    (hlj : getCol (pass1 s sorted mt nib).cols cj = some lj)
    (hne : li ≠ lj)
    (hmap : (compact (extentMap s sorted (pass1 s sorted mt nib).cols)
        (lanesWithCommits (pass1 s sorted mt nib).cols)
        (valuesMax (pass1 s sorted mt nib).cols)).mapping li =
      (compact (extentMap s sorted (pass1 s sorted mt nib).cols)
        (lanesWithCommits (pass1 s sorted mt nib).cols)
        (valuesMax (pass1 s sorted mt nib).cols)).mapping lj) :
    (commitInterval sorted prei.length c_i).2 ≤ (commitInterval sorted prej.length c_j).1 ∨
    (commitInterval sorted prej.length c_j).2 ≤ (commitInterval sorted prei.length c_i).1 := by
  obtain ⟨ai, bi, hei, hai, hbi⟩ :=
    extentMap_covers s (pass1 s sorted mt nib).cols ci c_i li prei posti hsi hli hfi
  obtain ⟨aj, bj, hej, haj, hbj⟩ :=
    extentMap_covers s (pass1 s sorted mt nib).cols cj c_j lj prej postj hsj hlj hfj
  have inv := compact_inv (extentMap s sorted (pass1 s sorted mt nib).cols)
    (lanesWithCommits (pass1 s sorted mt nib).cols)
    (valuesMax (pass1 s sorted mt nib).cols)
  have hmi : li ∈ lanesWithCommits (pass1 s sorted mt nib).cols :=
    lane_mem_lanesWithCommits _ ci li hli
  have hmj : lj ∈ lanesWithCommits (pass1 s sorted mt nib).cols :=
    lane_mem_lanesWithCommits _ cj lj hlj
  have hd := inv.disj li hmi lj hmj hne (ai, bi) (aj, bj) hei hej hmap
  rcases hd with h | h
  · left
    calc (commitInterval sorted prei.length c_i).2 ≤ bi := hbi
      _ ≤ aj := h
      _ ≤ (commitInterval sorted prej.length c_j).1 := haj
  · right
    calc (commitInterval sorted prej.length c_j).2 ≤ bj := hbj
      _ ≤ ai := h
      _ ≤ (commitInterval sorted prei.length c_i).1 := hai

/-- The stored commit record for `f2` after `build_graph` on `exReuseMin`. -/
def f2Commit : Commit := { mkC "f2" ["m2"] 6 with children := ["m1"] }

/-- The stored commit record for `f1` after `build_graph` on `exReuseMin`. -/
def f1Commit : Commit := { mkC "f1" ["m4"] 3 with children := ["m3"] }

/-- Witness for the amended C6 on `exReuseMin`: `f2` (pre-compaction lane 1)
and `f1` (pre-compaction lane 2) end up in the same column 1, and their
intervals [2,4) and [5,7) are indeed disjoint. -/
theorem compaction_no_overlap_witness :
    (commitInterval exReuseMinSorted (["m0", "m1"] : List String).length f2Commit).2 ≤
      (commitInterval exReuseMinSorted
        (["m0", "m1", "f2", "m2", "m3"] : List String).length f1Commit).1 ∨
    (commitInterval exReuseMinSorted
        (["m0", "m1", "f2", "m2", "m3"] : List String).length f1Commit).2 ≤
      (commitInterval exReuseMinSorted (["m0", "m1"] : List String).length f2Commit).1 :=
  compaction_no_overlap (build_graph exReuseMin) exReuseMinSorted (some "m0") (fun _ => false)
    "f2" "f1" f2Commit f1Commit 1 2
    ["m0", "m1"] ["m2", "m3", "f1", "m4", "m5"]
    ["m0", "m1", "f2", "m2", "m3"] ["m4", "m5"]
    (by decide) (by decide) (by decide) (by decide) (by decide) (by decide)
    (by decide) (by decide)

/- ### C5: the row renderers (src/renderer.rs) -/

/-- Embedding of `enum SyncStatus` (src/graph.rs). -/
inductive SyncStatus where
  | Synced : SyncStatus
  | LocalOnly : SyncStatus
  | RemoteOnly : SyncStatus
  | Diverged : SyncStatus
deriving Repr, DecidableEq

/-- `ratatui` colors actually produced by `commit_style`; `Default` stands for
`Style::default()` with no foreground (used by `Span::raw`). -/
inductive ColorE where
  | White : ColorE
  | Green : ColorE
  | Red : ColorE
  | Yellow : ColorE
  | DarkGray : ColorE
  | Default : ColorE
deriving Repr, DecidableEq

/-- Embedding of `enum GlyphType` (src/renderer.rs lines 5-18). -/
inductive GlyphType where
  | Commit : GlyphType
  | CommitHead : GlyphType
  | Vertical : GlyphType
  | Horizontal : GlyphType
  | TopRight : GlyphType
  | BottomRight : GlyphType
  | TopLeft : GlyphType
  | BottomLeft : GlyphType
  | TeeRight : GlyphType
  | TeeLeft : GlyphType
  | Cross : GlyphType
deriving Repr, DecidableEq

/-- `Renderer::select_glyph` (src/renderer.rs lines 35-70). -/
def select_glyph : GlyphType → Bool → Bool → Char
  | GlyphType.CommitHead, _, _ => '◉'
  | GlyphType.Commit, true, _ => '●'
  | GlyphType.Commit, false, _ => '○'
  | GlyphType.Vertical, true, _ => '┃'
  | GlyphType.Vertical, false, _ => '│'
  | GlyphType.Horizontal, true, _ => '━'
  | GlyphType.Horizontal, false, _ => '─'
  | GlyphType.TopRight, true, _ => '┓'
  | GlyphType.TopRight, false, _ => '╮'
  | GlyphType.BottomRight, true, _ => '┛'
  | GlyphType.BottomRight, false, _ => '╯'
  | GlyphType.TopLeft, true, _ => '┏'
  | GlyphType.TopLeft, false, _ => '╭'
  | GlyphType.BottomLeft, true, _ => '┗'
  | GlyphType.BottomLeft, false, _ => '╰'
  | GlyphType.TeeRight, true, _ => '┣'
  | GlyphType.TeeRight, false, _ => '├'
  | GlyphType.TeeLeft, true, _ => '┫'
  | GlyphType.TeeLeft, false, _ => '┤'
  | GlyphType.Cross, _, _ => '│'

/-- `Renderer::commit_style` (src/renderer.rs lines 72-86), reduced to the
foreground color it selects. -/
def commit_style (sync : SyncStatus) (_on_ancestry_path : Bool)
    (not_in_current_branch : Bool) : ColorE :=
  if not_in_current_branch then ColorE.DarkGray
  else match sync with
    | SyncStatus.Synced => ColorE.White
    | SyncStatus.LocalOnly => ColorE.Green
    | SyncStatus.RemoteOnly => ColorE.Red
    | SyncStatus.Diverged => ColorE.Yellow

/-- A produced `Span`: its text content and foreground color. -/
structure SpanE where
  content : String
  style : ColorE
deriving Repr, DecidableEq

/-- Total character width of a produced row. -/
def charLen (spans : List SpanE) : Nat := (spans.map (fun sp => sp.content.length)).sum

/-- The spans `render_node_row` pushes for one column `col` of the loop
(src/renderer.rs lines 110-156). -/
def nodeRowCell (head_commit_id : Option String) (node : GraphNode)
    (active_columns : List Nat) (col_to_in_current_branch : Nat → Option Bool)
    (on_ancestry_path : Bool) (sync_status : SyncStatus)
    (not_in_current_branch : Bool) (col : Nat) : List SpanE :=
  let is_head := head_commit_id == some node.commit.id
  let current_node_style := commit_style sync_status on_ancestry_path not_in_current_branch
  let merge_sources := node.connections.filterMap
    (fun c => match c with | Connection.MergeFrom source => some source | _ => none)
  let is_merge := !merge_sources.isEmpty
  let col_style :=
    if col = node.column then current_node_style
    else match col_to_in_current_branch col with
      | some in_current_branch =>
        commit_style sync_status on_ancestry_path (!in_current_branch)
      | none => current_node_style
  let min_source := match merge_sources.min? with
    | some m => m
    | none => col
  if col = node.column then
    let glyph := if is_head then select_glyph GlyphType.CommitHead on_ancestry_path true
      else select_glyph GlyphType.Commit on_ancestry_path false
    if is_merge then
      [{ content := String.mk [glyph], style := current_node_style },
       { content := "─", style := current_node_style }]
    else
      [{ content := String.mk [glyph, ' '], style := current_node_style }]
  else if is_merge && merge_sources.contains col then
    [{ content := "╮ ", style := current_node_style }]
  else if is_merge && decide (col > node.column) && decide (col < min_source) then
    if active_columns.contains col && !(merge_sources.contains col) then
      [{ content := "│─", style := current_node_style }]
    else
      [{ content := "──", style := current_node_style }]
  else if active_columns.contains col && !(merge_sources.contains col) then
    [{ content := String.mk [select_glyph GlyphType.Vertical false false, ' '],
       style := col_style }]
  else
    [{ content := "  ", style := ColorE.Default }]

/-- `Renderer::render_node_row` (src/renderer.rs lines 88-159): one loop
iteration per `col in 0..width`, pushing the spans of `nodeRowCell`. -/
def render_node_row (head_commit_id : Option String) (node : GraphNode) (width : Nat)
    (active_columns : List Nat) (col_to_in_current_branch : Nat → Option Bool)
    (on_ancestry_path : Bool) (sync_status : SyncStatus)
    (not_in_current_branch : Bool) : List SpanE :=
  ((List.range width).map (nodeRowCell head_commit_id node active_columns
    col_to_in_current_branch on_ancestry_path sync_status not_in_current_branch)).flatten

theorem nodeRowCell_charLen (hc : Option String) (node : GraphNode)
    (ac : List Nat) (ctib : Nat → Option Bool) (oap : Bool) (ss : SyncStatus)
    (nicb : Bool) (col : Nat) :
    charLen (nodeRowCell hc node ac ctib oap ss nicb col) = 2 := by
  simp only [nodeRowCell]
  repeat' split
  all_goals rfl

theorem charLen_append (a b : List SpanE) : charLen (a ++ b) = charLen a + charLen b := by
  simp [charLen]

theorem charLen_flatten_map {α : Type} (f : α → List SpanE) (h : ∀ x, charLen (f x) = 2) :
    ∀ l : List α, charLen ((l.map f).flatten) = 2 * l.length := by
  intro l
  induction l with
  | nil => rfl
  | cons a rest ih =>
    simp only [List.map_cons, List.flatten_cons, List.length_cons]
    rw [charLen_append, h a, ih]
    omega

/-- `render_node_row` is total and always emits exactly `width` columns of
content, two characters each, for every input, malformed ones included. -/
theorem render_node_row_width (hc : Option String) (node : GraphNode) (width : Nat)
    (ac : List Nat) (ctib : Nat → Option Bool) (oap : Bool) (ss : SyncStatus)
    (nicb : Bool) :
    charLen (render_node_row hc node width ac ctib oap ss nicb) = 2 * width := by
  unfold render_node_row
  have h := charLen_flatten_map _
    (fun col => nodeRowCell_charLen hc node ac ctib oap ss nicb col) (List.range width)
  rw [List.length_range] at h
  exact h

/-- Checked write to the `col_chars` vector: `col_chars[i] = v` panics (`none`)
when `i` is out of range. -/
def setCell (cc : List String) (i : Nat) (v : String) : Option (List String) :=
  if i < cc.length then some (cc.set i v) else none

/-- Checked read `col_chars[i]`: panics (`none`) when `i` is out of range. -/
def getCell (cc : List String) (i : Nat) : Option String := cc[i]?

/-- `String::ends_with('─')`. -/
def endsWithDash (s : String) : Bool := s.data.getLast? == some '─'

/-- `HashMap::insert` (later lookups see the newest binding). -/
def mapInsert (m : List (Nat × Nat)) (k v : Nat) : List (Nat × Nat) := (k, v) :: m

/-- `HashMap::get`. -/
def mapGet (m : List (Nat × Nat)) (k : Nat) : Option Nat :=
  (m.find? (fun p => p.1 == k)).map Prod.snd

/-- Mutable state of `render_edge_row` up to the merge-columns pass:
`col_chars`, `current_branch_cols`, `leftward_branch_sources`,
`leftward_merge_targets`. -/
structure EdgeAcc where
  cc : List String
  cbc : List Nat
  lbs : List (Nat × Nat)
  lmt : List Nat

/-- One `branch_targets` iteration of `render_edge_row`
(src/renderer.rs lines 264-329). -/
def branchTargetStep (current_column : Nat) (st : EdgeAcc) (target_col : Nat) :
    Option EdgeAcc := do
  if target_col > current_column then
    let cc ← setCell st.cc current_column "├─"
    let r ← (List.range' (current_column + 1) (target_col - (current_column + 1))).foldlM
      (fun (p : List String × List Nat) c => do
        let ch ← getCell p.1 c
        let cc2 ← if ch == "│ " then setCell p.1 c "│─"
          else if ch == "╯ " then setCell p.1 c "╯─"
          else setCell p.1 c "──"
        pure (cc2, natSetInsert p.2 c)) ((cc, st.cbc) : List String × List Nat)
    let cc2 ← setCell r.1 target_col "╮ "
    pure { st with cc := cc2, cbc := r.2 }
  else if target_col < current_column then
    let lbs1 := mapInsert st.lbs target_col current_column
    let lmt1 := natSetInsert st.lmt target_col
    let r ← (List.range' target_col (current_column - target_col)).foldlM
      (fun (p : List String × List (Nat × Nat)) c => do
        let ch ← getCell p.1 c
        let cc2 ←
          if c == target_col then
            if ch == "│ " then setCell p.1 c "├─"
            else if ch == "╯ " then setCell p.1 c "╯─"
            else setCell p.1 c "╭─"
          else
            if ch == "│ " then setCell p.1 c "│─"
            else if ch == "╯ " then setCell p.1 c "╯─"
            else setCell p.1 c "──"
        pure (cc2, mapInsert p.2 c current_column))
      ((st.cc, lbs1) : List String × List (Nat × Nat))
    let ch ← getCell r.1 current_column
    let cc2 ← if endsWithDash ch then setCell r.1 current_column "╯─"
      else setCell r.1 current_column "╯ "
    pure { st with cc := cc2, lbs := r.2, lmt := lmt1 }
  else
    pure st

/-- The shared cell update of the `other_merging_columns` loops
(src/renderer.rs lines 350-356 and 392-398): only `│ `, `╯ ` and empty cells
are rewritten. -/
def cellCrossUpd (cc : List String) (c : Nat) : Option (List String) := do
  let ch ← getCell cc c
  if ch == "│ " then setCell cc c "│─"
  else if ch == "╯ " then setCell cc c "╯─"
  else if ch == "" then setCell cc c "──"
  else pure cc

/-- One `other_merging_columns` iteration of `render_edge_row`
(src/renderer.rs lines 346-417); the state is
(`col_chars`, `merge_branch_cols`, `leftward_branch_sources`). -/
def otherMergeStep (next_column : Nat)
    (st : List String × List (Nat × Nat) × List (Nat × Nat)) (merge_col : Nat) :
    Option (List String × List (Nat × Nat) × List (Nat × Nat)) := do
  let (cc, mbc, lbs) := st
  if merge_col > next_column then
    let r ← (List.range' (next_column + 1) (merge_col - (next_column + 1))).foldlM
      (fun (p : List String × List (Nat × Nat) × List (Nat × Nat)) c => do
        let (cc, mbc, lbs) := p
        let cc2 ← cellCrossUpd cc c
        pure (cc2, mapInsert mbc c merge_col, mapInsert lbs c merge_col)) (cc, mbc, lbs)
    let (cc, mbc, lbs) := r
    let ch ← getCell cc merge_col
    let cc ← if endsWithDash ch then setCell cc merge_col "╯─" else setCell cc merge_col "╯ "
    let mbc := mapInsert mbc merge_col merge_col
    let ch2 ← getCell cc next_column
    let cc ← if ch2 == "│ " then setCell cc next_column "├─" else pure cc
    let should_update := match mapGet lbs next_column with
      | some existing_source =>
        let existing_distance := if existing_source > next_column
          then existing_source - next_column else next_column - existing_source
        let new_distance := merge_col - next_column
        decide (new_distance < existing_distance)
      | none => true
    let lbs := if should_update then mapInsert lbs next_column merge_col else lbs
    pure (cc, mbc, lbs)
  else if merge_col < next_column then
    let r ← (List.range' (merge_col + 1) (next_column - (merge_col + 1))).foldlM
      (fun (p : List String × List (Nat × Nat) × List (Nat × Nat)) c => do
        let (cc, mbc, lbs) := p
        let cc2 ← cellCrossUpd cc c
        pure (cc2, mapInsert mbc c merge_col, mapInsert lbs c merge_col)) (cc, mbc, lbs)
    let (cc, mbc, lbs) := r
    let cc ← setCell cc merge_col "├─"
    let mbc := mapInsert mbc merge_col merge_col
    let lbs := mapInsert lbs merge_col merge_col
    let ch ← getCell cc next_column
    let cc ← if endsWithDash ch then setCell cc next_column "╯─"
      else setCell cc next_column "╯ "
    let mbc := mapInsert mbc next_column merge_col
    pure (cc, mbc, lbs)
  else
    pure (cc, mbc, lbs)

/-- The spans pushed for one column of the final rendering loop of
`render_edge_row` (src/renderer.rs lines 420-535). The read
`col_chars[col]` there is length-guarded, hence total. -/
def edgeRowCell (next_node : GraphNode) (col_to_in_current_branch : Nat → Option Bool)
    (on_ancestry_path : Bool) (sync_status : SyncStatus) (current_node_style : ColorE)
    (cc : List String) (cbc : List Nat) (lbs : List (Nat × Nat))
    (lmt : List Nat) (mbc : List (Nat × Nat)) (col : Nat) : List SpanE :=
  let char_str := match cc[col]? with
    | some s => if s == "" then "  " else s
    | none => "  "
  let col_style :=
    if cbc.contains col then current_node_style
    else match mapGet mbc col with
      | some source_col =>
        match col_to_in_current_branch source_col with
        | some icb => commit_style sync_status on_ancestry_path (!icb)
        | none => current_node_style
      | none =>
        match col_to_in_current_branch col with
        | some icb => commit_style sync_status on_ancestry_path (!icb)
        | none => current_node_style
  let horizontal_style :=
    match mapGet lbs col with
    | some source_col =>
      if cbc.contains source_col then current_node_style
      else match mapGet mbc source_col with
        | some merge_source =>
          match col_to_in_current_branch merge_source with
          | some icb => commit_style sync_status on_ancestry_path (!icb)
          | none => current_node_style
        | none =>
          match col_to_in_current_branch source_col with
          | some icb => commit_style sync_status on_ancestry_path (!icb)
          | none => current_node_style
    | none => col_style
  if char_str == "├─" || char_str == "╭─" then
    let tee_char := if char_str == "├─" then "├" else "╭"
    let tee_style := if lmt.contains col then
        commit_style sync_status on_ancestry_path (!next_node.in_current_branch)
      else col_style
    [{ content := tee_char, style := tee_style },
     { content := "─", style := horizontal_style }]
  else if char_str == "╯─" || char_str == "│─" then
    let vertical_char := if char_str == "╯─" then "╯" else "│"
    let vertical_style := match col_to_in_current_branch col with
      | some icb => commit_style sync_status on_ancestry_path (!icb)
      | none => col_style
    [{ content := vertical_char, style := vertical_style },
     { content := "─", style := horizontal_style }]
  else
    [{ content := char_str, style := col_style }]

/-- Embedding of `Renderer::render_edge_row` (src/renderer.rs lines 161-538).
The unchecked `col_chars[...]` writes of the Rust code are modelled with
`setCell`/`getCell`; a `none` result is a Rust panic (index out of bounds). -/
def render_edge_row (current_node next_node : GraphNode) (width : Nat)
    (active_columns : List Nat) (col_to_in_current_branch : Nat → Option Bool)
    (on_ancestry_path : Bool) (sync_status : SyncStatus)
    (all_nodes : List GraphNode) (not_in_current_branch : Bool) :
    Option (List SpanE) := do
  let current_node_style := commit_style sync_status on_ancestry_path not_in_current_branch
  let is_parent := current_node.commit.parents.contains next_node.commit.id
  let is_child := next_node.commit.parents.contains current_node.commit.id
  let branch_targets : List Nat := if is_parent then
      current_node.connections.filterMap (fun c => match c with
        | Connection.BranchTo target =>
          if target == next_node.column then some target else none
        | _ => none)
    else []
  let current_merge_sources := current_node.connections.filterMap
    (fun c => match c with | Connection.MergeFrom source => some source | _ => none)
  let is_current_merge := !current_merge_sources.isEmpty
  let cc0 := List.replicate width ""
  let cc1 ← active_columns.foldlM (fun cc col => setCell cc col "│ ") cc0
  let current_idx := all_nodes.findIdx? (fun n => n.commit.id == current_node.commit.id)
  let next_idx := all_nodes.findIdx? (fun n => n.commit.id == next_node.commit.id)
  let other_merging_columns : List Nat := match current_idx, next_idx with
    | some curr_idx, some _ =>
      active_columns.filter (fun col =>
        col != current_node.column &&
        ((all_nodes.take (curr_idx + 1)).any (fun n =>
          n.column == col &&
          n.commit.parents.contains next_node.commit.id &&
          n.commit.parents.all (fun p =>
            (all_nodes.drop (curr_idx + 1)).any (fun pn => pn.commit.id == p)))))
    | _, _ => []
  let has_branch := !branch_targets.isEmpty
  let st1 : EdgeAcc ←
    if is_current_merge then do
      let cc ← setCell cc1 current_node.column "│ "
      let cc ← current_merge_sources.foldlM (fun cc source_col =>
        if source_col > current_node.column then setCell cc source_col "│ "
        else pure cc) cc
      pure { cc := cc, cbc := [], lbs := [], lmt := [] }
    else if has_branch then
      branch_targets.foldlM (branchTargetStep current_node.column)
        { cc := cc1, cbc := [], lbs := [], lmt := [] }
    else do
      let cc ← setCell cc1 current_node.column "│ "
      pure { cc := cc, cbc := [], lbs := [], lmt := [] }
  let st2 : EdgeAcc ←
    if is_child then do
      let ch ← getCell st1.cc current_node.column
      if ch == "" then do
        let cc ← setCell st1.cc current_node.column "│ "
        pure { st1 with cc := cc }
      else pure st1
    else pure st1
  let r ← other_merging_columns.foldlM (otherMergeStep next_node.column)
    ((st2.cc, ([] : List (Nat × Nat)), st2.lbs) :
      List String × List (Nat × Nat) × List (Nat × Nat))
  let (cc, mbc, lbs) := r
  pure (((List.range width).map (edgeRowCell next_node col_to_in_current_branch
    on_ancestry_path sync_status current_node_style cc st2.cbc lbs st2.lmt mbc)).flatten)

/-- Edge-row fixture: plain commit `b` (column 0, simple vertical
continuation) above its parent `a`. -/
def edgeNodeA : GraphNode :=
  { commit := mkC "b" ["a"] 2, column := 0,
    connections := [Connection.Vertical], in_current_branch := true }

/-- Edge-row fixture: root commit `a` in column 0. -/
def edgeNodeB : GraphNode :=
  { commit := mkC "a" [] 1, column := 0, connections := [], in_current_branch := true }

/-- C5: `render_edge_row` is NOT panic-free on malformed input. With
`width = 1` and `active_columns = [1]` — an active-column entry outside the
rendered width, exactly the malformed shape the claim says is "defensively
clamped/ignored" — the very first pass executes `col_chars[1] = "│ "` on a
vector of length 1 and panics (the embedding returns `none`); no row of
`width` columns is produced. (`render_node_row`, by contrast, satisfies the
claim for all inputs: see `render_node_row_width`.) -/
theorem render_edge_row_panics :
    render_edge_row edgeNodeA edgeNodeB 1 [1] (fun _ => none) false
      SyncStatus.Synced [edgeNodeA, edgeNodeB] false = none := by
  decide
